import Mathlib

/-!
Verification of the classification engine of the `fileclassify` repository
(`src/models.go`).

Go strings are modelled as `List Char` (Go's `for _, c := range s` iterates
over runes, and all indices the code computes — `strings.Index(s, "{")`,
`strings.LastIndex(s, "}")` — fall on single-byte ASCII runes, so byte
slicing coincides with rune slicing here).  Go maps are modelled as
association lists in insertion order, and functions returning `(T, error)`
are modelled as returning `Option T × Option Err` or `Except Err T`.
The HTTP transport and `encoding/json` unmarshalling are external to the
engine; a batch's transport outcome is abstracted as an oracle value
`ChunkReply` (either an error — covering API failure, invalid JSON and
unmarshal failure — or the parsed category → paths map).
-/

namespace FileClassify

abbrev Str := List Char

/-- Whitespace predicate of Go's `unicode.IsSpace` (the `White_Space`
property: ASCII whitespace, NEL, NBSP and the Unicode space separators). -/
def goIsSpace (c : Char) : Bool :=
  c.val = 0x9 || c.val = 0xA || c.val = 0xB || c.val = 0xC || c.val = 0xD ||
  c.val = 0x20 || c.val = 0x85 || c.val = 0xA0 || c.val = 0x1680 ||
  (0x2000 ≤ c.val && c.val ≤ 0x200A) || c.val = 0x2028 || c.val = 0x2029 ||
  c.val = 0x202F || c.val = 0x205F || c.val = 0x3000

/-- Go `strings.TrimSpace`: drop leading and trailing whitespace. -/
def trimSpace (s : Str) : Str :=
  ((s.dropWhile goIsSpace).reverse.dropWhile goIsSpace).reverse

/-- Index of the first occurrence of `a` (Go `strings.Index` for a
one-rune pattern), `none` for Go's `-1`. -/
def firstIdx (a : Char) : Str → Option Nat
  | [] => none
  | c :: cs => if c = a then some 0 else (firstIdx a cs).map (· + 1)

/-- Index of the last occurrence of `a` (Go `strings.LastIndex` for a
one-rune pattern), `none` for Go's `-1`. -/
def lastIdx (a : Char) : Str → Option Nat
  | [] => none
  | c :: cs =>
    match lastIdx a cs with
    | some k => some (k + 1)
    | none => if c = a then some 0 else none

/-- Go `strings.Contains s sub`. -/
def strContains : Str → Str → Bool
  | [], sub => sub.isEmpty
  | s@(_ :: rest), sub => sub.isPrefixOf s || strContains rest sub

/-- State of the bracket/string scan of `isValidJSON` (`src/models.go`
lines 212–251): the bracket stack (top at the end, as in the Go slice),
the in-string flag and the backslash-escape flag. -/
structure JState where
  stack : Str
  inStr : Bool
  esc : Bool
deriving DecidableEq, Repr

/-- One character step of the `isValidJSON` scan; `none` models the early
`return false` on a mismatched closing bracket. -/
def jsonStep (st : Option JState) (c : Char) : Option JState :=
  match st with
  | none => none
  | some s =>
    if s.esc then some { s with esc := false }
    else if c = '\\' then some { s with esc := true }
    else if c = '"' then some { s with inStr := !s.inStr }
    else if s.inStr then some s
    else if c = '{' || c = '[' then some { s with stack := s.stack ++ [c] }
    else if c = '}' then
      if s.stack.getLast? = some '{' then some { s with stack := s.stack.dropLast }
      else none
    else if c = ']' then
      if s.stack.getLast? = some '[' then some { s with stack := s.stack.dropLast }
      else none
    else some s

/-- Go `isValidJSON` (`src/models.go` lines 205–254). -/
def isValidJSON (content : Str) : Bool :=
  let c := trimSpace content
  if ¬ (['{'].isPrefixOf c) || ¬ (['}'].isSuffixOf c) then false
  else
    match c.foldl jsonStep (some ⟨[], false, false⟩) with
    | none => false
    | some st => st.stack.isEmpty && !st.inStr

/-- Lines 147–155 of `fixIncompleteJSON`: prepend `{` unless the content
starts with one, append `}` unless it ends with one. -/
def braceAdjust (c : Str) : Str :=
  let c := if ['{'].isPrefixOf c then c else '{' :: c
  if ['}'].isSuffixOf c then c else c ++ ['}']

/-- Go `fixIncompleteJSON` (`src/models.go` lines 138–203).  Note that the
three counting loops of the source range over every rune of the evolving
string — they do not track string mode. -/
def fixIncompleteJSON (content : Str) : Str :=
  let c := trimSpace content
  if c = [] then c
  else
    let c := braceAdjust c
    let c := if c.count '[' > c.count ']' then
        c ++ List.replicate (c.count '[' - c.count ']') ']' else c
    let c := if c.count '{' > c.count '}' then
        c ++ List.replicate (c.count '{' - c.count '}') '}' else c
    let c := if c.count '"' % 2 ≠ 0 then c ++ ['"'] else c
    c

def fenceJson : Str := "```json".toList

def fence : Str := "```".toList

/-- The trimming / markdown-fence-stripping prefix of
`extractJSONFromContent` (`src/models.go` lines 102–116). -/
def stripWrap (content : Str) : Str :=
  let c := trimSpace content
  let c := if fenceJson.isPrefixOf c then trimSpace (c.drop fenceJson.length) else c
  let c := if fence.isPrefixOf c then trimSpace (c.drop fence.length) else c
  if fence.isSuffixOf c then trimSpace (c.take (c.length - fence.length)) else c

/-- Go `extractJSONFromContent` (`src/models.go` lines 100–136). -/
def extractJSONFromContent (content : Str) : Str :=
  let c := stripWrap content
  match firstIdx '{' c, lastIdx '}' c with
  | some st, some en =>
    if en ≤ st then c
    else
      let j := (c.drop st).take (en + 1 - st)
      if isValidJSON j then j else fixIncompleteJSON j
  | _, _ => c

/-- The repair/extraction step applied to a raw reply by
`processClassificationChunk` (`src/models.go` lines 345–349):
`extractJSONFromContent` followed by `fixIncompleteJSON`. -/
def repairStep (content : Str) : Str :=
  fixIncompleteJSON (extractJSONFromContent content)

/-- Counter state of the string-aware balance repair that claim C3
attributes to `fixIncompleteJSON`: string mode with a backslash-escape
flag, bracket/brace counts taken only outside strings, and a count of
unescaped quotes. -/
structure AwareCount where
  inStr : Bool
  esc : Bool
  openBrace : Nat
  closeBrace : Nat
  openBracket : Nat
  closeBracket : Nat
  quotes : Nat
deriving DecidableEq, Repr

def awareCountStep (st : AwareCount) (c : Char) : AwareCount :=
  if st.esc then { st with esc := false }
  else if c = '\\' then { st with esc := true }
  else if c = '"' then { st with inStr := !st.inStr, quotes := st.quotes + 1 }
  else if st.inStr then st
  else if c = '{' then { st with openBrace := st.openBrace + 1 }
  else if c = '}' then { st with closeBrace := st.closeBrace + 1 }
  else if c = '[' then { st with openBracket := st.openBracket + 1 }
  else if c = ']' then { st with closeBracket := st.closeBracket + 1 }
  else st

/-- The balance repair as described by claim C3: identical to
`fixIncompleteJSON` except that occurrences of brackets, braces and
quotes are counted string-aware (inside-string characters do not count,
an escaped quote does not toggle string mode). -/
def fixIncompleteJSONClaim (content : Str) : Str :=
  let c := trimSpace content
  if c = [] then c
  else
    let c := braceAdjust c
    let st := c.foldl awareCountStep ⟨false, false, 0, 0, 0, 0, 0⟩
    let c := c ++ List.replicate (st.openBracket - st.closeBracket) ']'
    let c := c ++ List.replicate (st.openBrace - st.closeBrace) '}'
    if st.quotes % 2 ≠ 0 then c ++ ['"'] else c

/-- The balance repair as the code actually performs it, re-stated with
all three counts taken in one pass over the brace-adjusted slice,
regardless of string context. -/
def fixIncompleteJSONAmended (content : Str) : Str :=
  let c := trimSpace content
  if c = [] then c
  else
    let c := braceAdjust c
    c ++ List.replicate (c.count '[' - c.count ']') ']'
      ++ List.replicate (c.count '{' - c.count '}') '}'
      ++ (if c.count '"' % 2 ≠ 0 then ['"'] else [])

/-- Go `FileInfo` (declared in the repository's enumeration code, shown in
`src/README.md`): a relative path and a category, the category initially
empty. -/
structure FileInfo where
  path : Str
  category : Str
deriving DecidableEq, Repr

/-- A Go `map[string][]FileInfo` as an association list in insertion
order with pairwise-distinct keys. -/
abbrev CMap := List (Str × List FileInfo)

/-- A Go `map[string]bool` (the `processedFiles` set) as an association
list in insertion order with pairwise-distinct keys. -/
abbrev PSet := List (Str × Bool)

/-- Go map write `ps[k] = v` on a `map[string]bool`. -/
def psetSet : PSet → Str → Bool → PSet
  | [], k, v => [(k, v)]
  | (k', v') :: rest, k, v =>
    if k' = k then (k', v) :: rest else (k', v') :: psetSet rest k v

/-- Go map read `ps[k]` on a `map[string]bool` (zero value `false`). -/
def psetGet (ps : PSet) (k : Str) : Bool :=
  match ps.find? (fun kv => kv.1 = k) with
  | some kv => kv.2
  | none => false

/-- Go map read `m[k]` on a `map[string][]FileInfo` (zero value `nil`). -/
def cmapGet (m : CMap) (k : Str) : List FileInfo :=
  match m.find? (fun kv => kv.1 = k) with
  | some kv => kv.2
  | none => []

/-- Go map write `m[k] = v` on a `map[string][]FileInfo`. -/
def cmapSet : CMap → Str → List FileInfo → CMap
  | [], k, v => [(k, v)]
  | (k', v') :: rest, k, v =>
    if k' = k then (k', v) :: rest else (k', v') :: cmapSet rest k v

/-- Go `m[k] = append(m[k], fs...)`. -/
def cmapAppend (m : CMap) (k : Str) (fs : List FileInfo) : CMap :=
  cmapSet m k (cmapGet m k ++ fs)

/-- Whether some record of `l` has path `p`. -/
def hasPath (l : List FileInfo) (p : Str) : Bool :=
  l.any (fun f => f.path = p)

/-- Number of records of `l` whose path is `p`. -/
def pathOcc (p : Str) (l : List FileInfo) : Nat :=
  (l.filter (fun f => f.path = p)).length

/-- Total number of occurrences of path `p` across all category lists of
a classification map. -/
def pathCount (m : CMap) (p : Str) : Nat :=
  (m.map (fun kv => pathOcc p kv.2)).sum

/-- Sum of the lengths of all category lists of a classification map. -/
def totalLen (m : CMap) : Nat :=
  (m.map (fun kv => kv.2.length)).sum

/-- Fuel-driven body of `splitFileList`; the fuel is only a structural
termination device (any fuel ≥ the list length gives the chunking of the
Go loop). -/
def splitChunks : Nat → List FileInfo → List (List FileInfo)
  | 0, _ => []
  | _, [] => []
  | fuel + 1, files@(_ :: _) =>
    files.take 150 :: splitChunks fuel (files.drop 150)

/-- Go `splitFileList` (`src/models.go` lines 256–268): split into
consecutive chunks of at most `maxFilesPerChunk = 150` files. -/
def splitFileList (files : List FileInfo) : List (List FileInfo) :=
  splitChunks files.length files

/-- Go `mergeClassificationResults` (`src/models.go` lines 270–279). -/
def mergeClassificationResults (results : List CMap) : CMap :=
  results.foldl (fun merged result =>
    result.foldl (fun acc kv => cmapAppend acc kv.1 kv.2) merged) []

/-- The outcome of one batch's transport + JSON extraction + unmarshal,
abstracted as an oracle: `.error` covers an API failure as well as a
reply whose JSON could not be validated or unmarshalled; `.ok cats` is
the parsed `map[string][]string` of categories to path lists. -/
abbrev ChunkReply := Except Str (List (Str × List Str))

/-- All path occurrences listed in a parsed reply, in order. -/
def allPaths (cats : List (Str × List Str)) : List Str :=
  (cats.map (fun kv => kv.2)).flatten

def emptyCatsErr : Str := "API返回的分类结果为空".toList

/-- Resolution of one listed path against the batch
(`src/models.go` lines 379–388): find the first record of the chunk with
that exact path; on a match stamp its category, append it to the
category's list and mark the path processed; otherwise do nothing. -/
def resolvePath (chunk : List FileInfo) (category : Str)
    (st : CMap × PSet) (path : Str) : CMap × PSet :=
  match chunk.find? (fun f => f.path = path) with
  | some f =>
    (cmapAppend st.1 category [{ f with category := category }],
     psetSet st.2 f.path true)
  | none => st

/-- Resolution of one reply category (`src/models.go` lines 377–389):
`classifiedFiles[category] = make([]FileInfo, 0)` then resolve each
listed path. -/
def resolveCat (chunk : List FileInfo) (st : CMap × PSet)
    (cat : Str × List Str) : CMap × PSet :=
  cat.2.foldl (resolvePath chunk cat.1) (cmapSet st.1 cat.1 [], st.2)

/-- The resolver loop of `processClassificationChunk`
(`src/models.go` lines 376–390). -/
def resolveChunk (chunk : List FileInfo) (cats : List (Str × List Str))
    (ps : PSet) : CMap × PSet :=
  cats.foldl (resolveCat chunk) ([], ps)

/-- Go `processClassificationChunk` (`src/models.go` lines 298–392) with
the transport/extraction/unmarshal stages abstracted by the `ChunkReply`
oracle: an errored reply is a batch error, an empty category map is a
batch error, and otherwise the resolver runs.  Errors occur before any
mutation of the processed set. -/
def processClassificationChunk (chunk : List FileInfo) (reply : ChunkReply)
    (ps : PSet) : Except Str (CMap × PSet) :=
  match reply with
  | .error e => .error e
  | .ok cats =>
    if cats.length = 0 then .error emptyCatsErr
    else .ok (resolveChunk chunk cats ps)

/-- Worker pool of `processChunksConcurrently`
(`src/models.go` lines 395–432), sequentialised: every chunk is
processed (even when another chunk errored), successful results are
collected in order, and the errors of failed chunks are collected
separately.  `i` is the batch index fed to the oracle. -/
def processChunksAux (oracle : Nat → ChunkReply) :
    List (List FileInfo) → Nat → PSet → List CMap × PSet × List Str
  | [], _, ps => ([], ps, [])
  | chunk :: rest, i, ps =>
    match processClassificationChunk chunk (oracle i) ps with
    | .ok (m, ps') =>
      let (ms, psf, errs) := processChunksAux oracle rest (i + 1) ps'
      (m :: ms, psf, errs)
    | .error e =>
      let (ms, psf, errs) := processChunksAux oracle rest (i + 1) ps
      (ms, psf, e :: errs)

/-- Go `processChunksConcurrently`: wait for all workers, then return
`(nil, err)` for the first collected error, else all results. -/
def processChunksConcurrently (oracle : Nat → ChunkReply)
    (chunks : List (List FileInfo)) (ps : PSet) :
    Except Str (List CMap) × PSet :=
  let (ms, psf, errs) := processChunksAux oracle chunks 0 ps
  match errs with
  | [] => (.ok ms, psf)
  | e :: _ => (.error e, psf)

def unclassifiedName : Str := "未分类".toList

/-- Go `handleUnclassifiedFiles` (`src/models.go` lines 460–490): collect
the paths still marked unprocessed; if any exist, build the reserved
`未分类` category containing the matching records. -/
def handleUnclassifiedFiles (files : List FileInfo) (ps : PSet) : CMap :=
  let unprocessed := (ps.filter (fun kv => !kv.2)).map (fun kv => kv.1)
  if unprocessed.length > 0 then
    [(unclassifiedName,
      unprocessed.foldl (fun acc path =>
        match files.find? (fun f => f.path = path) with
        | some f => acc ++ [{ f with category := unclassifiedName }]
        | none => acc) [])]
  else []

/-- Go `(p *DeepseekProvider) ClassifyFiles` (`src/models.go` lines
435–458; the SiliconFlow/Aliyun/GitHub variants are verbatim copies):
split into chunks, initialise the processed set to `false` for every
input path, process all chunks, then append the unclassified fallback
and merge.  Returns the Go pair `(map, err)`. -/
def ClassifyFiles (files : List FileInfo) (oracle : Nat → ChunkReply) :
    Option CMap × Option Str :=
  let chunks := splitFileList files
  let ps := files.foldl (fun ps f => psetSet ps f.path false) []
  match processChunksConcurrently oracle chunks ps with
  | (.error e, _) => (none, some e)
  | (.ok allResults, psf) =>
    let unclassified := handleUnclassifiedFiles files psf
    let allResults :=
      if unclassified.length > 0 then allResults ++ [unclassified] else allResults
    (some (mergeClassificationResults allResults), none)

/-- Trace of one `callAPI` retry loop: the returned value, the number of
transport attempts made, and the seconds slept between attempts. -/
structure APITrace (α : Type) where
  result : Except Str α
  attempts : Nat
  sleeps : List Nat
deriving Repr

def jsonToken : Str := "JSON".toList

def retryFailPrefix : Str := "在3次重试后仍然失败: ".toList

/-- The retry loop of Go `callAPI` (`src/models.go` lines 493–516),
unrolled on the number of attempts remaining (`rem + 1` attempts left,
`i` the current zero-based attempt index, so `rem = 0` means this is the
final attempt of the `i < 3` loop).  A success returns immediately; an
error containing "JSON" returns immediately; otherwise the code sleeps
`2^i` seconds and retries, and after the final failure wraps the last
error in the terminal message. -/
def callAPIGo (t : Nat → Except Str α) : Nat → Nat → APITrace α
  | _, 0 => ⟨.error [], 0, []⟩
  | i, rem + 1 =>
    match t i with
    | .ok r => ⟨.ok r, 1, []⟩
    | .error e =>
      if strContains e jsonToken then ⟨.error e, 1, []⟩
      else if rem = 0 then ⟨.error (retryFailPrefix ++ e), 1, [2 ^ i]⟩
      else
        let tr := callAPIGo t (i + 1) rem
        ⟨tr.result, tr.attempts + 1, 2 ^ i :: tr.sleeps⟩

/-- Go `callAPI`: three attempts starting at attempt index 0. -/
def callAPI (t : Nat → Except Str α) : APITrace α :=
  callAPIGo t 0 3

/-! ### Basic lemmas about the string helpers -/

lemma singleton_isPrefixOf_iff (a : Char) (l : Str) :
    (([a] : Str).isPrefixOf l = true) ↔ l.head? = some a := by
  cases l with
  | nil => simp [List.isPrefixOf]
  | cons b t =>
    show (a == b && List.isPrefixOf [] t) = true ↔ _
    rw [show List.isPrefixOf ([] : Str) t = true from by cases t <;> rfl, Bool.and_true,
      beq_iff_eq, List.head?_cons]
    constructor
    · intro h
      rw [h]
    · intro h
      injection h with h
      rw [h]

lemma singleton_isSuffixOf_iff (a : Char) (l : Str) :
    (([a] : Str).isSuffixOf l = true) ↔ l.getLast? = some a := by
  show (([a] : Str).reverse.isPrefixOf l.reverse = true) ↔ _
  rw [List.reverse_singleton, singleton_isPrefixOf_iff, List.head?_reverse]

lemma trimSpace_eq_self {l : Str} {a b : Char}
    (hh : l.head? = some a) (ha : goIsSpace a = false)
    (hl : l.getLast? = some b) (hb : goIsSpace b = false) :
    trimSpace l = l := by
  have h1 : l.dropWhile goIsSpace = l := by
    cases l with
    | nil => rfl
    | cons c t =>
      simp only [List.head?_cons, Option.some.injEq] at hh
      subst hh
      simp [List.dropWhile_cons, ha]
  have h2 : l.reverse.dropWhile goIsSpace = l.reverse := by
    cases hr : l.reverse with
    | nil => rfl
    | cons c t =>
      have : l.reverse.head? = some c := by rw [hr]; rfl
      rw [List.head?_reverse] at this
      rw [hl] at this
      injection this with this
      subst this
      simp [List.dropWhile_cons, hb]
  rw [trimSpace, h1, h2, List.reverse_reverse]

lemma count_append_replicate_ne (c d : Char) (h : c ≠ d) (l : Str) (n : Nat) :
    (l ++ List.replicate n d).count c = l.count c := by
  simp only [List.count_append, List.count_replicate]
  have : ¬ (d = c) := fun h' => h h'.symm
  simp [this]

lemma head?_append_left {l l' : Str} (h : l ≠ []) :
    (l ++ l').head? = l.head? := by
  cases l with
  | nil => exact absurd rfl h
  | cons a t => rfl

/-! ### The balance repair counts every occurrence (C3 machinery) -/

/-- The three counting passes of `fixIncompleteJSON` are equivalent to
counting all five characters once over the brace-adjusted slice: the
appended `]`s contain no braces or quotes, and the appended `}`s no
quotes, so the later passes see the same counts. -/
lemma fix_eq_amended (s : Str) :
    fixIncompleteJSON s = fixIncompleteJSONAmended s := by
  unfold fixIncompleteJSON fixIncompleteJSONAmended
  by_cases h0 : trimSpace s = []
  · simp [h0]
  · simp only [if_neg h0]
    generalize braceAdjust (trimSpace s) = c
    have e1 : ('{' : Char) ≠ ']' := by decide
    have e2 : ('}' : Char) ≠ ']' := by decide
    have e3 : ('"' : Char) ≠ ']' := by decide
    have e4 : ('"' : Char) ≠ '}' := by decide
    by_cases h1 : c.count '[' > c.count ']'
    · simp only [if_pos h1, count_append_replicate_ne _ _ e1,
        count_append_replicate_ne _ _ e2, count_append_replicate_ne _ _ e3]
      by_cases h2 : c.count '{' > c.count '}'
      · simp only [if_pos h2, List.append_assoc, count_append_replicate_ne _ _ e3,
          count_append_replicate_ne _ _ e4]
        by_cases h3 : List.count '"' c % 2 = 1 <;>
          simp [h3, List.count_replicate, List.append_assoc]
      · have hz : c.count '{' - c.count '}' = 0 := Nat.sub_eq_zero_of_le (Nat.le_of_not_lt h2)
        simp only [if_neg h2, hz, List.replicate_zero, List.append_nil,
          count_append_replicate_ne _ _ e3]
        by_cases h3 : List.count '"' c % 2 = 1 <;>
          simp [h3, List.count_replicate, List.append_assoc]
    · have hz : c.count '[' - c.count ']' = 0 := Nat.sub_eq_zero_of_le (Nat.le_of_not_lt h1)
      simp only [if_neg h1, hz, List.replicate_zero, List.append_nil]
      by_cases h2 : c.count '{' > c.count '}'
      · simp only [if_pos h2, count_append_replicate_ne _ _ e4]
        by_cases h3 : List.count '"' c % 2 = 1 <;>
          simp [h3, List.count_replicate, List.append_assoc]
      · have hz2 : c.count '{' - c.count '}' = 0 := Nat.sub_eq_zero_of_le (Nat.le_of_not_lt h2)
        simp only [if_neg h2, hz2, List.replicate_zero, List.append_nil]
        by_cases h3 : List.count '"' c % 2 = 1 <;>
          simp [h3, List.count_replicate, List.append_assoc]

lemma braceAdjust_ne_nil (c : Str) (h : c ≠ []) : braceAdjust c ≠ [] := by
  unfold braceAdjust
  by_cases h1 : (['{'] : Str).isPrefixOf c <;>
    by_cases h2 : (['}'] : Str).isSuffixOf (if (['{'] : Str).isPrefixOf c then c else '{' :: c) <;>
    simp_all

lemma braceAdjust_head (c : Str) (h : c ≠ []) :
    (braceAdjust c).head? = some '{' := by
  unfold braceAdjust
  have hmid : (if (['{'] : Str).isPrefixOf c then c else '{' :: c).head? = some '{' := by
    by_cases h1 : (['{'] : Str).isPrefixOf c
    · rw [if_pos h1]
      exact (singleton_isPrefixOf_iff '{' c).mp h1
    · rw [if_neg h1]
      rfl
  have hne : (if (['{'] : Str).isPrefixOf c then c else '{' :: c) ≠ [] := by
    by_cases h1 : (['{'] : Str).isPrefixOf c <;> simp_all
  by_cases h2 : (['}'] : Str).isSuffixOf (if (['{'] : Str).isPrefixOf c then c else '{' :: c)
  · rw [if_pos h2]
    exact hmid
  · rw [if_neg h2, head?_append_left hne]
    exact hmid

/-! ### Claim C3 — the balance repair is not string-aware (corrected) -/

/-- Claim C3 as stated is false: on the input `{"a":"["}` the code's
`fixIncompleteJSON` counts the `[` that lies inside a quoted string and
appends a spurious `]`, whereas the string-aware repair described by the
claim (`fixIncompleteJSONClaim`) leaves the input unchanged. -/
theorem fix_not_string_aware_cex :
    fixIncompleteJSON ['{', '"', 'a', '"', ':', '"', '[', '"', '}'] ≠
      fixIncompleteJSONClaim ['{', '"', 'a', '"', ':', '"', '[', '"', '}'] := by
  decide

/-- Claim C3 amended: `fixIncompleteJSON` counts occurrences of
`{`, `}`, `[`, `]` and `"` over the whole slice regardless of string
context (no string mode, no escape flag); equivalently, after the
brace-prefix/suffix adjustment, all five counts may be taken in a single
pass over the adjusted slice, and the missing `]`s, the missing `}`s and
(for an odd quote count) one `"` are appended in that order. -/
theorem fix_balance_counts_everywhere (s : Str) :
    fixIncompleteJSON s = fixIncompleteJSONAmended s :=
  fix_eq_amended s

/-! ### Claim C10 — repair edge cases (corrected) -/

/-- Claim C10 as stated is false: the non-empty input consisting of one
space trims to the empty string, which `fixIncompleteJSON` returns
unchanged, so the output does not begin with `{`. -/
theorem fix_edge_cases_cex :
    ([' '] : Str) ≠ [] ∧ (fixIncompleteJSON [' ']).head? ≠ some '{' := by
  decide

/-- Claim C10 amended: `fixIncompleteJSON` of the empty string is the
empty string, and for every input that is still non-empty after
whitespace trimming the output begins with `{`. -/
theorem fix_edge_cases :
    fixIncompleteJSON ([] : Str) = [] ∧
      ∀ s : Str, trimSpace s ≠ [] → (fixIncompleteJSON s).head? = some '{' := by
  refine ⟨rfl, fun s hs => ?_⟩
  rw [fix_eq_amended]
  unfold fixIncompleteJSONAmended
  rw [if_neg hs]
  rw [head?_append_left, head?_append_left, head?_append_left
      (braceAdjust_ne_nil _ hs)]
  · exact braceAdjust_head _ hs
  · exact fun h => braceAdjust_ne_nil _ hs (List.append_eq_nil.mp h).1
  · exact fun h => braceAdjust_ne_nil _ hs
      (List.append_eq_nil.mp ((List.append_eq_nil.mp h).1)).1

/-- Witness for the amended C10 at a concrete input. -/
theorem fix_edge_cases_witness :
    trimSpace ['a'] ≠ [] ∧ (fixIncompleteJSON ['a']).head? = some '{' :=
  ⟨by decide, fix_edge_cases.2 ['a'] (by decide)⟩

/-! ### Claim C9 — the Chunker (confirmed) -/

lemma splitChunks_nil (fuel : Nat) : splitChunks fuel [] = [] := by
  cases fuel <;> rfl

lemma splitChunks_flatten :
    ∀ (fuel : Nat) (fs : List FileInfo), fs.length ≤ fuel →
      (splitChunks fuel fs).flatten = fs := by
  intro fuel
  induction fuel with
  | zero =>
    intro fs h
    rw [List.eq_nil_of_length_eq_zero (Nat.le_zero.mp h)]
    rfl
  | succ n ih =>
    intro fs h
    cases fs with
    | nil => rfl
    | cons f t =>
      show ((f :: t).take 150 :: splitChunks n ((f :: t).drop 150)).flatten = f :: t
      rw [List.flatten_cons, ih _ (by simp at h ⊢; omega), List.take_append_drop]

lemma splitChunks_sizes :
    ∀ (fuel : Nat) (fs : List FileInfo), fs.length ≤ fuel →
      ∀ i, i + 1 < (splitChunks fuel fs).length →
        ((splitChunks fuel fs).getD i []).length = 150 := by
  intro fuel
  induction fuel with
  | zero =>
    intro fs h i hi
    rw [List.eq_nil_of_length_eq_zero (Nat.le_zero.mp h)] at hi
    simp [splitChunks] at hi
  | succ n ih =>
    intro fs h i hi
    cases fs with
    | nil => simp [splitChunks_nil] at hi
    | cons f t =>
      have hstep : splitChunks (n + 1) (f :: t) =
          (f :: t).take 150 :: splitChunks n ((f :: t).drop 150) := rfl
      rw [hstep] at hi ⊢
      cases i with
      | zero =>
        simp only [List.getD_cons_zero]
        have hrestlen : 0 < (splitChunks n ((f :: t).drop 150)).length := by
          simp only [List.length_cons] at hi
          omega
        have hdrop : (f :: t).drop 150 ≠ [] := by
          intro hempty
          rw [hempty, splitChunks_nil] at hrestlen
          simp at hrestlen
        have hlen : 150 < (f :: t).length := by
          by_contra hle
          exact hdrop (List.drop_eq_nil_of_le (Nat.le_of_not_lt hle))
        simp only [List.length_take]
        exact Nat.min_eq_left (Nat.le_of_lt hlen)
      | succ j =>
        simp only [List.getD_cons_succ]
        exact ih _ (by simp at h ⊢; omega) j (by simpa using Nat.lt_of_succ_lt_succ hi)

lemma splitChunks_last :
    ∀ (fuel : Nat) (fs : List FileInfo), fs.length ≤ fuel →
      ∀ c, (splitChunks fuel fs).getLast? = some c →
        1 ≤ c.length ∧ c.length ≤ 150 := by
  intro fuel
  induction fuel with
  | zero =>
    intro fs h c hc
    rw [List.eq_nil_of_length_eq_zero (Nat.le_zero.mp h)] at hc
    simp [splitChunks] at hc
  | succ n ih =>
    intro fs h c hc
    cases fs with
    | nil => simp [splitChunks_nil] at hc
    | cons f t =>
      have hstep : splitChunks (n + 1) (f :: t) =
          (f :: t).take 150 :: splitChunks n ((f :: t).drop 150) := rfl
      rw [hstep] at hc
      cases hrest : splitChunks n ((f :: t).drop 150) with
      | nil =>
        rw [hrest] at hc
        simp only [List.getLast?_singleton, Option.some.injEq] at hc
        subst hc
        constructor
        · simp [List.length_take]
        · simp [List.length_take]
      | cons c0 cs =>
        rw [hrest] at hc
        rw [List.getLast?_cons_cons] at hc
        exact ih _ (by simp at h ⊢; omega) c (hrest ▸ hc)

/-- Claim C9: `splitFileList` produces the input in order, in chunks of
exactly 150 except possibly a last chunk of size 1..150, and an empty
input produces no chunks, making `ClassifyFiles` return the empty map
with no error. -/
theorem chunker_spec (files : List FileInfo) (oracle : Nat → ChunkReply) :
    (splitFileList files).flatten = files ∧
      (∀ i, i + 1 < (splitFileList files).length →
        ((splitFileList files).getD i []).length = 150) ∧
      (∀ c, (splitFileList files).getLast? = some c →
        1 ≤ c.length ∧ c.length ≤ 150) ∧
      (files = [] → splitFileList files = [] ∧
        ClassifyFiles files oracle = (some [], none)) := by
  refine ⟨splitChunks_flatten _ _ (Nat.le_refl _),
    splitChunks_sizes _ _ (Nat.le_refl _),
    splitChunks_last _ _ (Nat.le_refl _),
    fun h => ?_⟩
  subst h
  exact ⟨rfl, rfl⟩

set_option maxRecDepth 4000 in
/-- Witness for C9 at concrete inputs: the empty input short-circuits,
and splitting 151 files yields a first chunk of exactly 150. -/
theorem chunker_spec_witness :
    ClassifyFiles [] (fun _ => .error []) = (some [], none) ∧
      ((splitFileList (List.replicate 151 ⟨['a'], []⟩)).getD 0 []).length = 150 :=
  ⟨((chunker_spec [] (fun _ => .error [])).2.2.2 rfl).2,
   (chunker_spec (List.replicate 151 ⟨['a'], []⟩) (fun _ => .error [])).2.1 0
     (by decide)⟩

/-! ### Claim C7 — retry behaviour of callAPI (confirmed) -/

lemma callAPIGo_ok {α : Type} (t : Nat → Except Str α) (i rem : Nat) (r : α)
    (h : t i = .ok r) : callAPIGo t i (rem + 1) = ⟨.ok r, 1, []⟩ := by
  unfold callAPIGo
  rw [h]

lemma callAPIGo_jsonErr {α : Type} (t : Nat → Except Str α) (i rem : Nat) (e : Str)
    (h : t i = .error e) (hj : strContains e jsonToken = true) :
    callAPIGo t i (rem + 1) = ⟨.error e, 1, []⟩ := by
  unfold callAPIGo
  rw [h]
  simp [hj]

lemma callAPIGo_final {α : Type} (t : Nat → Except Str α) (i : Nat) (e : Str)
    (h : t i = .error e) (hj : strContains e jsonToken = false) :
    callAPIGo t i 1 = ⟨.error (retryFailPrefix ++ e), 1, [2 ^ i]⟩ := by
  unfold callAPIGo
  rw [h]
  simp [hj]

lemma callAPIGo_retry {α : Type} (t : Nat → Except Str α) (i rem : Nat) (e : Str)
    (h : t i = .error e) (hj : strContains e jsonToken = false) :
    callAPIGo t i (rem + 2) =
      ⟨(callAPIGo t (i + 1) (rem + 1)).result,
       (callAPIGo t (i + 1) (rem + 1)).attempts + 1,
       2 ^ i :: (callAPIGo t (i + 1) (rem + 1)).sleeps⟩ := by
  conv_lhs => unfold callAPIGo
  rw [h]
  simp [hj]

/-- Claim C7: `callAPI` makes at most 3 transport attempts with `2^i`
seconds of backoff slept after failed attempt `i`; a transport failing
`k < 3` times (for non-JSON reasons) then succeeding yields that success
on attempt `k + 1`; an error mentioning "JSON" at attempt `k` is
returned immediately with no further attempt; a transport that always
fails yields, after exactly 3 attempts, the terminal error wrapping the
last failure in a message naming the attempt count 3. -/
theorem callAPI_retry_spec {α : Type} (t : Nat → Except Str α) :
    (∀ (k : Nat) (e : Nat → Str) (r : α), k < 3 →
      (∀ j, j < k → t j = .error (e j)) →
      (∀ j, j < k → strContains (e j) jsonToken = false) →
      t k = .ok r →
      callAPI t = ⟨.ok r, k + 1, (List.range k).map (fun j => 2 ^ j)⟩) ∧
    (∀ (k : Nat) (e : Nat → Str), k < 3 →
      (∀ j, j < k → t j = .error (e j)) →
      (∀ j, j < k → strContains (e j) jsonToken = false) →
      t k = .error (e k) → strContains (e k) jsonToken = true →
      callAPI t = ⟨.error (e k), k + 1, (List.range k).map (fun j => 2 ^ j)⟩) ∧
    (∀ e : Nat → Str,
      (∀ j, j < 3 → t j = .error (e j)) →
      (∀ j, j < 3 → strContains (e j) jsonToken = false) →
      callAPI t = ⟨.error (retryFailPrefix ++ e 2), 3, [2 ^ 0, 2 ^ 1, 2 ^ 2]⟩ ∧
        '3' ∈ retryFailPrefix) := by
  refine ⟨?_, ?_, ?_⟩
  · intro k e r hk hf hnj hok
    interval_cases k
    · show callAPIGo t 0 3 = _
      rw [callAPIGo_ok t 0 2 r hok]
      rfl
    · show callAPIGo t 0 3 = _
      rw [callAPIGo_retry t 0 1 (e 0) (hf 0 (by omega)) (hnj 0 (by omega)),
        callAPIGo_ok t 1 1 r hok]
      rfl
    · show callAPIGo t 0 3 = _
      rw [callAPIGo_retry t 0 1 (e 0) (hf 0 (by omega)) (hnj 0 (by omega)),
        callAPIGo_retry t 1 0 (e 1) (hf 1 (by omega)) (hnj 1 (by omega)),
        callAPIGo_ok t 2 0 r hok]
      rfl
  · intro k e hk hf hnj herr hjson
    interval_cases k
    · show callAPIGo t 0 3 = _
      rw [callAPIGo_jsonErr t 0 2 (e 0) herr hjson]
      rfl
    · show callAPIGo t 0 3 = _
      rw [callAPIGo_retry t 0 1 (e 0) (hf 0 (by omega)) (hnj 0 (by omega)),
        callAPIGo_jsonErr t 1 1 (e 1) herr hjson]
      rfl
    · show callAPIGo t 0 3 = _
      rw [callAPIGo_retry t 0 1 (e 0) (hf 0 (by omega)) (hnj 0 (by omega)),
        callAPIGo_retry t 1 0 (e 1) (hf 1 (by omega)) (hnj 1 (by omega)),
        callAPIGo_jsonErr t 2 0 (e 2) herr hjson]
      rfl
  · intro e hf hnj
    constructor
    · show callAPIGo t 0 3 = _
      rw [callAPIGo_retry t 0 1 (e 0) (hf 0 (by omega)) (hnj 0 (by omega)),
        callAPIGo_retry t 1 0 (e 1) (hf 1 (by omega)) (hnj 1 (by omega)),
        callAPIGo_final t 2 (e 2) (hf 2 (by omega)) (hnj 2 (by omega))]
    · decide

/-- Witness for C7 at concrete transports: two transient failures then a
success succeeds on the third attempt after sleeping 1 and 2 seconds; a
permanently failing transport terminates after exactly 3 attempts with
the wrapped error. -/
theorem callAPI_retry_witness :
    callAPI (fun n => if n < 2 then .error ['x'] else .ok (7 : Nat)) =
      ⟨.ok 7, 3, [1, 2]⟩ ∧
    callAPI (fun _ => (.error ['x'] : Except Str Nat)) =
      ⟨.error (retryFailPrefix ++ ['x']), 3, [1, 2, 4]⟩ := by
  constructor
  · have h := (callAPI_retry_spec (fun n => if n < 2 then .error ['x'] else .ok (7 : Nat))).1
      2 (fun _ => ['x']) 7 (by omega)
      (fun j hj => by simp [hj])
      (fun j _ => by show strContains ['x'] jsonToken = false; decide)
      (by simp)
    simpa using h
  · have h := (callAPI_retry_spec (fun _ => (.error ['x'] : Except Str Nat))).2.2
      (fun _ => ['x']) (fun j _ => rfl)
      (fun j _ => by show strContains ['x'] jsonToken = false; decide)
    simpa using h.1

/-! ### Claim C8 — no partial commit on error (confirmed) -/

/-- Whether a batch's reply makes `processClassificationChunk` fail:
an errored transport/extraction/parse, or an empty category map.  The
failure condition does not depend on the processed set. -/
def chunkFails : ChunkReply → Bool
  | .error _ => true
  | .ok cats => cats.length == 0

lemma pcc_of_fails (chunk : List FileInfo) (ps : PSet) (reply : ChunkReply)
    (h : chunkFails reply = true) :
    ∃ e, processClassificationChunk chunk reply ps = .error e := by
  cases reply with
  | error e => exact ⟨e, rfl⟩
  | ok cats =>
    simp only [chunkFails, beq_iff_eq] at h
    exact ⟨emptyCatsErr, by simp [processClassificationChunk, h]⟩

lemma pcc_of_ok (chunk : List FileInfo) (ps : PSet) (reply : ChunkReply)
    (h : chunkFails reply = false) :
    ∃ cats, reply = .ok cats ∧ cats.length ≠ 0 ∧
      processClassificationChunk chunk reply ps = .ok (resolveChunk chunk cats ps) := by
  cases reply with
  | error e => simp [chunkFails] at h
  | ok cats =>
    have h' : cats.length ≠ 0 := by simpa [chunkFails] using h
    exact ⟨cats, rfl, h', by simp [processClassificationChunk, h']⟩

lemma processChunksAux_errs_nil_iff (oracle : Nat → ChunkReply) :
    ∀ (chunks : List (List FileInfo)) (i : Nat) (ps : PSet),
      (processChunksAux oracle chunks i ps).2.2 = [] ↔
        ∀ j, j < chunks.length → chunkFails (oracle (i + j)) = false := by
  intro chunks
  induction chunks with
  | nil => intro i ps; simp [processChunksAux]
  | cons chunk rest ih =>
    intro i ps
    constructor
    · intro h j hj
      cases hfail : chunkFails (oracle i) with
      | false =>
        obtain ⟨cats, -, -, hok⟩ := pcc_of_ok chunk ps (oracle i) hfail
        rcases hres : resolveChunk chunk cats ps with ⟨m0, ps'⟩
        rw [hres] at hok
        simp only [processChunksAux, hok] at h
        rcases hrec : processChunksAux oracle rest (i + 1) ps' with ⟨ms, psf, errs⟩
        rw [hrec] at h
        simp only at h
        cases j with
        | zero => simpa using hfail
        | succ j' =>
          have := (ih (i + 1) ps').mp (by rw [hrec]; exact h)
          have hj' := this j' (by simpa using Nat.lt_of_succ_lt_succ hj)
          rw [show i + 1 + j' = i + (j' + 1) by omega] at hj'
          exact hj'
      | true =>
        obtain ⟨e, herr⟩ := pcc_of_fails chunk ps (oracle i) hfail
        simp only [processChunksAux, herr] at h
        rcases hrec : processChunksAux oracle rest (i + 1) ps with ⟨ms, psf, errs⟩
        rw [hrec] at h
        simp at h
    · intro h
      have hfail : chunkFails (oracle i) = false := by simpa using h 0 (by simp)
      obtain ⟨cats, -, -, hok⟩ := pcc_of_ok chunk ps (oracle i) hfail
      rcases hres : resolveChunk chunk cats ps with ⟨m0, ps'⟩
      rw [hres] at hok
      simp only [processChunksAux, hok]
      rcases hrec : processChunksAux oracle rest (i + 1) ps' with ⟨ms, psf, errs⟩
      simp only
      have : errs = [] := by
        have hmpr := (ih (i + 1) ps').mpr ?_
        · rw [hrec] at hmpr; exact hmpr
        · intro j hj
          have hj' := h (j + 1) (by simpa using Nat.succ_lt_succ hj)
          rw [show i + (j + 1) = i + 1 + j by omega] at hj'
          exact hj'
      exact this

/-- Claim C8: an error is never accompanied by a map, and if any batch's
pipeline fails then the whole `ClassifyFiles` call returns `(nil, err)`
for some single error — the collected per-batch results are discarded. -/
theorem no_partial_commit (files : List FileInfo) (oracle : Nat → ChunkReply) :
    (∀ e, (ClassifyFiles files oracle).2 = some e →
      (ClassifyFiles files oracle).1 = none) ∧
    ((∃ i, i < (splitFileList files).length ∧ chunkFails (oracle i) = true) →
      ∃ e, ClassifyFiles files oracle = (none, some e)) := by
  constructor
  · intro e he
    simp only [ClassifyFiles] at he ⊢
    rcases hp : processChunksConcurrently oracle (splitFileList files)
        (List.foldl (fun ps f => psetSet ps f.path false) [] files) with ⟨res, psf⟩
    rw [hp] at he ⊢
    cases res with
    | error e' => rfl
    | ok ms => simp at he
  · rintro ⟨i, hi, hfail⟩
    simp only [ClassifyFiles, processChunksConcurrently]
    rcases haux : processChunksAux oracle (splitFileList files) 0
        (List.foldl (fun ps f => psetSet ps f.path false) [] files) with ⟨ms, psf, errs⟩
    rw [haux]
    simp only
    cases errs with
    | nil =>
      exfalso
      have hall := (processChunksAux_errs_nil_iff oracle (splitFileList files) 0 _).mp
        (by rw [haux])
      have hx := hall i hi
      rw [Nat.zero_add, hfail] at hx
      simp at hx
    | cons e es => exact ⟨e, rfl⟩

/-- Witness for C8: one file whose single batch reply errors makes the
whole call return `(nil, err)`. -/
theorem no_partial_commit_witness :
    ∃ e, ClassifyFiles [⟨['a'], []⟩] (fun _ => .error ['x']) = (none, some e) :=
  (no_partial_commit [⟨['a'], []⟩] (fun _ => .error ['x'])).2
    ⟨0, by decide, rfl⟩

/-! ### Resolver structure (C6 machinery, shared with C1/C2) -/

/-- The records the resolver produces for one reply category: the listed
paths that occur in the batch, in order, each stamped with the category. -/
def matchedRecords (chunk : List FileInfo) (c : Str) (paths : List Str) :
    List FileInfo :=
  (paths.filter (fun q => hasPath chunk q)).map (fun q => ⟨q, c⟩)

/-- Mark a list of paths as processed. -/
def markTrue (ps : PSet) (qs : List Str) : PSet :=
  qs.foldl (fun ps q => psetSet ps q true) ps

lemma cmapGet_cmapSet_self (m : CMap) (c : Str) (v : List FileInfo) :
    cmapGet (cmapSet m c v) c = v := by
  induction m with
  | nil => simp [cmapSet, cmapGet]
  | cons kv rest ih =>
    by_cases h : kv.1 = c
    · cases kv
      simp_all [cmapSet, cmapGet]
    · cases kv
      simp_all [cmapSet, cmapGet, List.find?]

lemma cmapSet_cmapSet_self (m : CMap) (c : Str) (v w : List FileInfo) :
    cmapSet (cmapSet m c v) c w = cmapSet m c w := by
  induction m with
  | nil => simp [cmapSet]
  | cons kv rest ih =>
    by_cases h : kv.1 = c
    · cases kv
      simp_all [cmapSet]
    · cases kv
      simp_all [cmapSet]

lemma cmapAppend_cmapSet (m : CMap) (c : Str) (v fs : List FileInfo) :
    cmapAppend (cmapSet m c v) c fs = cmapSet m c (v ++ fs) := by
  rw [cmapAppend, cmapGet_cmapSet_self, cmapSet_cmapSet_self]

lemma cmapSet_of_not_mem_keys (m : CMap) (c : Str) (v : List FileInfo)
    (h : c ∉ m.map (fun kv => kv.1)) : cmapSet m c v = m ++ [(c, v)] := by
  induction m with
  | nil => rfl
  | cons kv rest ih =>
    cases kv with
    | mk k w =>
      simp only [List.map_cons, List.mem_cons] at h
      push_neg at h
      have hk : ¬ (k = c) := fun hh => h.1 hh.symm
      show (if k = c then (k, v) :: rest else (k, w) :: cmapSet rest c v) = _
      rw [if_neg hk, List.cons_append]
      exact congrArg _ (ih h.2)

lemma find?_path_facts {chunk : List FileInfo} {q : Str} {f : FileInfo}
    (h : chunk.find? (fun f => f.path = q) = some f) :
    f ∈ chunk ∧ f.path = q := by
  refine ⟨List.mem_of_find?_eq_some h, ?_⟩
  have := List.find?_some h
  exact of_decide_eq_true this

lemma find?_none_of_hasPath_false {chunk : List FileInfo} {q : Str}
    (h : hasPath chunk q = false) :
    chunk.find? (fun f => f.path = q) = none := by
  rw [List.find?_eq_none]
  intro f hf
  intro hd
  have : hasPath chunk q = true := by
    simp only [hasPath, List.any_eq_true]
    exact ⟨f, hf, hd⟩
  rw [h] at this
  exact Bool.false_ne_true this

lemma hasPath_true_find? {chunk : List FileInfo} {q : Str}
    (h : hasPath chunk q = true) :
    ∃ f, chunk.find? (fun f => f.path = q) = some f := by
  cases hf : chunk.find? (fun f => f.path = q) with
  | some f => exact ⟨f, rfl⟩
  | none =>
    rw [List.find?_eq_none] at hf
    simp only [hasPath, List.any_eq_true] at h
    obtain ⟨f, hmem, hp⟩ := h
    exact absurd hp (hf f hmem)

lemma foldl_resolvePath (chunk : List FileInfo) (c : Str) :
    ∀ (paths : List Str) (m : CMap) (recs : List FileInfo) (ps : PSet),
      paths.foldl (resolvePath chunk c) (cmapSet m c recs, ps) =
        (cmapSet m c (recs ++ matchedRecords chunk c paths),
         markTrue ps (paths.filter (fun q => hasPath chunk q))) := by
  intro paths
  induction paths with
  | nil => intro m recs ps; simp [matchedRecords, markTrue]
  | cons q rest ih =>
    intro m recs ps
    rw [List.foldl_cons]
    cases hq : hasPath chunk q with
    | false =>
      have hfind := find?_none_of_hasPath_false hq
      rw [show resolvePath chunk c (cmapSet m c recs, ps) q =
          (cmapSet m c recs, ps) by simp [resolvePath, hfind]]
      rw [ih m recs ps]
      simp [matchedRecords, markTrue, List.filter_cons, hq]
    | true =>
      obtain ⟨f, hfind⟩ := hasPath_true_find? hq
      obtain ⟨hmem, hpath⟩ := find?_path_facts hfind
      have hstep : resolvePath chunk c (cmapSet m c recs, ps) q =
          (cmapSet m c (recs ++ [⟨q, c⟩]), psetSet ps q true) := by
        simp only [resolvePath, hfind]
        rw [show ({ f with category := c } : FileInfo) = ⟨q, c⟩ by
          cases f; simp_all]
        rw [cmapAppend_cmapSet, hpath]
      rw [hstep, ih]
      simp [matchedRecords, markTrue, List.filter_cons, hq]

lemma resolveCat_eq (chunk : List FileInfo) (c : Str) (paths : List Str)
    (m : CMap) (ps : PSet) :
    resolveCat chunk (m, ps) (c, paths) =
      (cmapSet m c (matchedRecords chunk c paths),
       markTrue ps (paths.filter (fun q => hasPath chunk q))) := by
  have h := foldl_resolvePath chunk c paths m [] ps
  simpa [resolveCat] using h

lemma markTrue_append (ps : PSet) (a b : List Str) :
    markTrue ps (a ++ b) = markTrue (markTrue ps a) b := by
  simp [markTrue, List.foldl_append]

lemma foldl_resolveCat (chunk : List FileInfo) :
    ∀ (cats : List (Str × List Str)) (m : CMap) (ps : PSet),
      (cats.map (fun kv => kv.1)).Nodup →
      (∀ kv ∈ cats, kv.1 ∉ m.map (fun kv => kv.1)) →
      cats.foldl (resolveCat chunk) (m, ps) =
        (m ++ cats.map (fun kv => (kv.1, matchedRecords chunk kv.1 kv.2)),
         markTrue ps ((allPaths cats).filter (fun q => hasPath chunk q))) := by
  intro cats
  induction cats with
  | nil => intro m ps _ _; simp [allPaths, markTrue]
  | cons kv rest ih =>
    intro m ps hnd hkeys
    rcases kv with ⟨c, paths⟩
    rw [List.foldl_cons, resolveCat_eq]
    rw [cmapSet_of_not_mem_keys m c _ (hkeys (c, paths) (List.mem_cons_self _ _))]
    rw [ih (m ++ [(c, matchedRecords chunk c paths)]) _ (by simpa using hnd.of_cons)
      (fun kv' hkv' => by
        simp only [List.map_append, List.mem_append, List.map_cons, List.map_nil,
          List.mem_singleton]
        push_neg
        refine ⟨hkeys kv' (List.mem_cons_of_mem _ hkv'), ?_⟩
        intro hkc
        have hc : c ∈ rest.map (fun kv => kv.1) := by
          rw [← hkc]
          exact List.mem_map_of_mem _ hkv'
        simp only [List.map_cons, List.nodup_cons] at hnd
        exact hnd.1 hc)]
    simp only [allPaths, List.map_cons, List.flatten_cons, List.filter_append,
      List.append_assoc, List.cons_append, List.nil_append]
    rw [markTrue_append]

lemma resolveChunk_eq (chunk : List FileInfo) (cats : List (Str × List Str))
    (ps : PSet) (hnd : (cats.map (fun kv => kv.1)).Nodup) :
    resolveChunk chunk cats ps =
      (cats.map (fun kv => (kv.1, matchedRecords chunk kv.1 kv.2)),
       markTrue ps ((allPaths cats).filter (fun q => hasPath chunk q))) := by
  have h := foldl_resolveCat chunk cats [] ps hnd (by simp)
  simpa [resolveChunk] using h

lemma psetGet_psetSet_self (ps : PSet) (k : Str) (v : Bool) :
    psetGet (psetSet ps k v) k = v := by
  induction ps with
  | nil => simp [psetSet, psetGet, List.find?]
  | cons kv rest ih =>
    cases kv with
    | mk a b =>
      show psetGet (if a = k then (a, v) :: rest else (a, b) :: psetSet rest k v) k = v
      by_cases h : a = k
      · rw [if_pos h]
        simp [psetGet, List.find?, h]
      · rw [if_neg h]
        simp only [psetGet, List.find?]
        rw [show (decide (a = k)) = false by simpa using h]
        exact ih

lemma psetGet_psetSet_ne (ps : PSet) (k : Str) (v : Bool) (q : Str) (h : q ≠ k) :
    psetGet (psetSet ps k v) q = psetGet ps q := by
  induction ps with
  | nil =>
    simp only [psetSet, psetGet, List.find?]
    rw [show (decide (k = q)) = false by simpa using fun hh => h hh.symm]
  | cons kv rest ih =>
    cases kv with
    | mk a b =>
      show psetGet (if a = k then (a, v) :: rest else (a, b) :: psetSet rest k v) q = _
      by_cases h1 : a = k
      · rw [if_pos h1]
        have haq : (decide (a = q)) = false := by
          subst h1
          simpa using fun hh => h hh.symm
        simp only [psetGet, List.find?, haq]
      · rw [if_neg h1]
        by_cases h2 : a = q
        · simp [psetGet, List.find?, h2]
        · simp only [psetGet, List.find?,
            show (decide (a = q)) = false by simpa using h2]
          exact ih

lemma psetGet_markTrue (ps : PSet) (qs : List Str) (q : Str) :
    psetGet (markTrue ps qs) q = (psetGet ps q || decide (q ∈ qs)) := by
  induction qs generalizing ps with
  | nil => simp [markTrue]
  | cons a rest ih =>
    show psetGet (markTrue (psetSet ps a true) rest) q = _
    rw [ih]
    by_cases h : q = a
    · subst h
      rw [psetGet_psetSet_self]
      simp
    · rw [psetGet_psetSet_ne ps a true q h]
      simp [List.mem_cons, h]

/-! ### Claim C6 — resolver scoping and tolerance (confirmed) -/

/-- Claim C6: for a validated non-empty reply (a JSON object, hence with
pairwise-distinct category keys), the resolver succeeds unconditionally;
its output map is exactly the reply's categories, each holding the
listed paths that occur in the current batch (in order, stamped with the
category) — reply paths matching no batch record are silently dropped —
and a path ends up marked processed iff it was already marked or is a
batch path listed somewhere in the reply. -/
theorem resolver_scoping_tolerance (chunk : List FileInfo)
    (cats : List (Str × List Str)) (ps : PSet)
    (hk : (cats.map (fun kv => kv.1)).Nodup) (hne : cats ≠ []) :
    ∃ m ps', processClassificationChunk chunk (.ok cats) ps = .ok (m, ps') ∧
      m = cats.map (fun kv => (kv.1, matchedRecords chunk kv.1 kv.2)) ∧
      (∀ kv ∈ m, ∀ f ∈ kv.2,
        (∃ g ∈ chunk, g.path = f.path) ∧ f.category = kv.1) ∧
      (∀ q, psetGet ps' q =
        (psetGet ps q || (hasPath chunk q && decide (q ∈ allPaths cats)))) := by
  have hlen : cats.length ≠ 0 := fun h => hne (List.eq_nil_of_length_eq_zero h)
  refine ⟨(resolveChunk chunk cats ps).1, (resolveChunk chunk cats ps).2,
    by simp [processClassificationChunk, hlen], ?_, ?_, ?_⟩
  · rw [resolveChunk_eq chunk cats ps hk]
  · rw [resolveChunk_eq chunk cats ps hk]
    intro kv hkv f hf
    simp only [List.mem_map] at hkv
    obtain ⟨⟨c, paths⟩, hmem, hkveq⟩ := hkv
    subst hkveq
    simp only [matchedRecords, List.mem_map, List.mem_filter] at hf
    obtain ⟨q, ⟨-, hq⟩, hfeq⟩ := hf
    subst hfeq
    simp only [hasPath, List.any_eq_true] at hq
    obtain ⟨g, hg, hgq⟩ := hq
    exact ⟨⟨g, hg, of_decide_eq_true hgq⟩, rfl⟩
  · intro q
    rw [resolveChunk_eq chunk cats ps hk]
    simp only
    rw [psetGet_markTrue]
    by_cases hq : hasPath chunk q = true
    · simp [List.mem_filter, hq]
    · have hq' : hasPath chunk q = false := by
        cases h : hasPath chunk q
        · rfl
        · exact absurd h hq
      simp [List.mem_filter, hq']

/-- Witness for C6: a batch of one file and a reply listing that file
plus an invented path resolves without error. -/
theorem resolver_scoping_tolerance_witness :
    ∃ m ps', processClassificationChunk [⟨['a'], []⟩]
      (.ok [(['c'], [['a'], ['b']])]) [] = .ok (m, ps') := by
  obtain ⟨m, ps', h, -⟩ := resolver_scoping_tolerance [⟨['a'], []⟩]
    [(['c'], [['a'], ['b']])] [] (by decide) (by decide)
  exact ⟨m, ps', h⟩

/-! ### ProcessedSet key structure (C1/C2 machinery) -/

lemma keys_psetSet (ps : PSet) (k : Str) (v : Bool) :
    (psetSet ps k v).map (fun kv => kv.1) =
      if k ∈ ps.map (fun kv => kv.1) then ps.map (fun kv => kv.1)
      else ps.map (fun kv => kv.1) ++ [k] := by
  induction ps with
  | nil => simp [psetSet]
  | cons kv rest ih =>
    cases kv with
    | mk a b =>
      show ((if a = k then (a, v) :: rest else (a, b) :: psetSet rest k v).map _) = _
      by_cases h : a = k
      · subst h
        simp [List.mem_cons]
      · rw [if_neg h]
        simp only [List.map_cons, List.mem_cons]
        rw [ih]
        by_cases hm : k ∈ rest.map (fun kv => kv.1)
        · simp [hm]
        · have hka : ¬ (k = a) := fun hh => h hh.symm
          simp [hm, hka]

lemma mem_keys_psetSet {ps : PSet} {k : Str} {v : Bool} {q : Str} :
    q ∈ (psetSet ps k v).map (fun kv => kv.1) ↔
      q ∈ ps.map (fun kv => kv.1) ∨ q = k := by
  rw [keys_psetSet]
  by_cases h : k ∈ ps.map (fun kv => kv.1)
  · rw [if_pos h]
    constructor
    · exact Or.inl
    · rintro (hq | hq)
      · exact hq
      · rw [hq]; exact h
  · rw [if_neg h]
    simp [List.mem_append]

lemma keys_psetSet_nodup {ps : PSet} {k : Str} {v : Bool}
    (h : (ps.map (fun kv => kv.1)).Nodup) :
    ((psetSet ps k v).map (fun kv => kv.1)).Nodup := by
  rw [keys_psetSet]
  by_cases hm : k ∈ ps.map (fun kv => kv.1)
  · rwa [if_pos hm]
  · rw [if_neg hm]
    simp [List.nodup_append, h, hm]

lemma mem_keys_markTrue {ps : PSet} {qs : List Str} {q : Str} :
    q ∈ (markTrue ps qs).map (fun kv => kv.1) ↔
      q ∈ ps.map (fun kv => kv.1) ∨ q ∈ qs := by
  induction qs generalizing ps with
  | nil => simp [markTrue]
  | cons a rest ih =>
    show q ∈ (markTrue (psetSet ps a true) rest).map _ ↔ _
    rw [ih, mem_keys_psetSet]
    simp [List.mem_cons]
    tauto

lemma keys_markTrue_nodup {ps : PSet} {qs : List Str}
    (h : (ps.map (fun kv => kv.1)).Nodup) :
    ((markTrue ps qs).map (fun kv => kv.1)).Nodup := by
  induction qs generalizing ps with
  | nil => exact h
  | cons a rest ih => exact ih (keys_psetSet_nodup h)

/-- In a processed set with pairwise-distinct keys, the number of times
a path occurs among the unprocessed keys is 1 exactly when the path is a
key whose flag is still false. -/
lemma count_unprocessed (psf : PSet) (p : Str)
    (hnd : (psf.map (fun kv => kv.1)).Nodup) :
    ((psf.filter (fun kv => !kv.2)).map (fun kv => kv.1)).count p =
      if p ∈ psf.map (fun kv => kv.1) ∧ psetGet psf p = false then 1 else 0 := by
  induction psf with
  | nil => simp [psetGet]
  | cons kv rest ih =>
    cases kv with
    | mk a b =>
      simp only [List.map_cons, List.nodup_cons] at hnd
      by_cases hpa : p = a
      · subst hpa
        have hget : psetGet ((p, b) :: rest) p = b := by
          simp [psetGet, List.find?]
        have hcount0 : ((rest.filter (fun kv => !kv.2)).map (fun kv => kv.1)).count p = 0 := by
          rw [List.count_eq_zero]
          intro hmem
          simp only [List.mem_map, List.mem_filter] at hmem
          obtain ⟨kv', ⟨hkv', -⟩, hkey⟩ := hmem
          exact hnd.1 (hkey ▸ List.mem_map_of_mem (fun kv => kv.1) hkv')
        cases b with
        | false =>
          have hcons : ((p, false) :: rest).filter (fun kv => !kv.2) =
              (p, false) :: rest.filter (fun kv => !kv.2) := by simp
          rw [hcons, List.map_cons, List.count_cons, hcount0]
          simp only [hget, List.map_cons, List.mem_cons]
          simp
        | true =>
          have hcons : ((p, true) :: rest).filter (fun kv => !kv.2) =
              rest.filter (fun kv => !kv.2) := by simp
          rw [hcons, hcount0]
          simp only [hget, List.map_cons, List.mem_cons]
          simp
      · have hget : psetGet ((a, b) :: rest) p = psetGet rest p := by
          simp only [psetGet, List.find?]
          rw [show (decide (a = p)) = false by
            simpa using fun hh => hpa hh.symm]
        cases b with
        | false =>
          have hcons : ((a, false) :: rest).filter (fun kv => !kv.2) =
              (a, false) :: rest.filter (fun kv => !kv.2) := by simp
          rw [hcons, List.map_cons, List.count_cons, ih hnd.2]
          simp only [hget, List.map_cons, List.mem_cons]
          rw [show ((a == p) : Bool) = false by simpa using fun hh => hpa hh.symm]
          simp [hpa]
        | true =>
          have hcons : ((a, true) :: rest).filter (fun kv => !kv.2) =
              rest.filter (fun kv => !kv.2) := by simp
          rw [hcons, ih hnd.2]
          simp only [hget, List.map_cons, List.mem_cons]
          simp [hpa]

/-- The record-building loop of `handleUnclassifiedFiles` is the matched
records of the full file list for the reserved category. -/
lemma foldl_unclassified (files : List FileInfo) :
    ∀ (qs : List Str) (acc : List FileInfo),
      qs.foldl (fun acc path =>
        match files.find? (fun f => f.path = path) with
        | some f => acc ++ [{ f with category := unclassifiedName }]
        | none => acc) acc
      = acc ++ matchedRecords files unclassifiedName qs := by
  intro qs
  induction qs with
  | nil => intro acc; simp [matchedRecords]
  | cons q rest ih =>
    intro acc
    rw [List.foldl_cons]
    cases hq : hasPath files q with
    | false =>
      have hfind := find?_none_of_hasPath_false hq
      rw [show (match files.find? (fun f => f.path = q) with
          | some f => acc ++ [{ f with category := unclassifiedName }]
          | none => acc) = acc by rw [hfind]]
      rw [ih acc]
      simp [matchedRecords, List.filter_cons, hq]
    | true =>
      obtain ⟨f, hfind⟩ := hasPath_true_find? hq
      obtain ⟨hmem, hpath⟩ := find?_path_facts hfind
      have hrec : ({ f with category := unclassifiedName } : FileInfo) =
          ⟨q, unclassifiedName⟩ := by cases f; simp_all
      rw [show (match files.find? (fun f => f.path = q) with
          | some f => acc ++ [{ f with category := unclassifiedName }]
          | none => acc) = acc ++ [⟨q, unclassifiedName⟩] by
        rw [hfind]
        show acc ++ [{ f with category := unclassifiedName }] = _
        rw [hrec]]
      rw [ih]
      simp [matchedRecords, List.filter_cons, hq]

/-- `handleUnclassifiedFiles` in closed form. -/
lemma handleUnclassifiedFiles_eq (files : List FileInfo) (psf : PSet) :
    handleUnclassifiedFiles files psf =
      if ((psf.filter (fun kv => !kv.2)).map (fun kv => kv.1)).length > 0 then
        [(unclassifiedName,
          matchedRecords files unclassifiedName
            ((psf.filter (fun kv => !kv.2)).map (fun kv => kv.1)))]
      else [] := by
  unfold handleUnclassifiedFiles
  by_cases h : ((psf.filter (fun kv => !kv.2)).map (fun kv => kv.1)).length > 0
  · rw [if_pos h, if_pos h, foldl_unclassified]
    simp
  · rw [if_neg h, if_neg h]

/-! ### Counting paths through the Merger (C1/C2 machinery) -/

lemma pathOcc_append (p : Str) (l1 l2 : List FileInfo) :
    pathOcc p (l1 ++ l2) = pathOcc p l1 + pathOcc p l2 := by
  simp [pathOcc, List.filter_append]

lemma cmapGet_eq_nil_of_not_mem (m : CMap) (k : Str)
    (h : k ∉ m.map (fun kv => kv.1)) : cmapGet m k = [] := by
  induction m with
  | nil => rfl
  | cons kv rest ih =>
    cases kv with
    | mk a v =>
      simp only [List.map_cons, List.mem_cons] at h
      push_neg at h
      simp only [cmapGet, List.find?]
      rw [show (decide (a = k)) = false by simpa using fun hh => h.1 hh.symm]
      exact ih h.2

lemma pathCount_cmapAppend (m : CMap) (k : Str) (fs : List FileInfo) (p : Str) :
    pathCount (cmapAppend m k fs) p = pathCount m p + pathOcc p fs := by
  induction m with
  | nil =>
    simp [cmapAppend, cmapGet, cmapSet, pathCount, pathOcc]
  | cons kv rest ih =>
    cases kv with
    | mk a v =>
      by_cases h : a = k
      · subst h
        have hget : cmapGet ((a, v) :: rest) a = v := by
          simp [cmapGet, List.find?]
        have hset : cmapSet ((a, v) :: rest) a (v ++ fs) = (a, v ++ fs) :: rest := by
          show (if a = a then _ else _) = _
          rw [if_pos rfl]
        rw [cmapAppend, hget, hset]
        simp [pathCount, pathOcc_append]
        omega
      · have hget : cmapGet ((a, v) :: rest) k = cmapGet rest k := by
          simp only [cmapGet, List.find?]
          rw [show (decide (a = k)) = false by simpa using h]
        have hset : cmapSet ((a, v) :: rest) k (cmapGet rest k ++ fs) =
            (a, v) :: cmapSet rest k (cmapGet rest k ++ fs) := by
          show (if a = k then _ else _) = _
          rw [if_neg h]
        rw [cmapAppend, hget, hset]
        have ih' := ih
        rw [cmapAppend] at ih'
        simp only [pathCount, List.map_cons, List.sum_cons] at ih' ⊢
        omega

lemma totalLen_cmapAppend (m : CMap) (k : Str) (fs : List FileInfo) :
    totalLen (cmapAppend m k fs) = totalLen m + fs.length := by
  induction m with
  | nil =>
    simp [cmapAppend, cmapGet, cmapSet, totalLen]
  | cons kv rest ih =>
    cases kv with
    | mk a v =>
      by_cases h : a = k
      · subst h
        have hget : cmapGet ((a, v) :: rest) a = v := by
          simp [cmapGet, List.find?]
        have hset : cmapSet ((a, v) :: rest) a (v ++ fs) = (a, v ++ fs) :: rest := by
          show (if a = a then _ else _) = _
          rw [if_pos rfl]
        rw [cmapAppend, hget, hset]
        simp [totalLen]
        omega
      · have hget : cmapGet ((a, v) :: rest) k = cmapGet rest k := by
          simp only [cmapGet, List.find?]
          rw [show (decide (a = k)) = false by simpa using h]
        have hset : cmapSet ((a, v) :: rest) k (cmapGet rest k ++ fs) =
            (a, v) :: cmapSet rest k (cmapGet rest k ++ fs) := by
          show (if a = k then _ else _) = _
          rw [if_neg h]
        rw [cmapAppend, hget, hset]
        have ih' := ih
        rw [cmapAppend] at ih'
        simp only [totalLen, List.map_cons, List.sum_cons] at ih' ⊢
        omega

lemma pathCount_foldl_append (result : CMap) (p : Str) :
    ∀ m : CMap,
      pathCount (result.foldl (fun acc kv => cmapAppend acc kv.1 kv.2) m) p =
        pathCount m p + pathCount result p := by
  induction result with
  | nil => intro m; simp [pathCount]
  | cons kv rest ih =>
    intro m
    rw [List.foldl_cons, ih, pathCount_cmapAppend]
    simp only [pathCount, List.map_cons, List.sum_cons]
    omega

lemma totalLen_foldl_append (result : CMap) :
    ∀ m : CMap,
      totalLen (result.foldl (fun acc kv => cmapAppend acc kv.1 kv.2) m) =
        totalLen m + totalLen result := by
  induction result with
  | nil => intro m; simp [totalLen]
  | cons kv rest ih =>
    intro m
    rw [List.foldl_cons, ih, totalLen_cmapAppend]
    simp only [totalLen, List.map_cons, List.sum_cons]
    omega

lemma pathCount_merge (results : List CMap) (p : Str) :
    pathCount (mergeClassificationResults results) p =
      (results.map (fun r => pathCount r p)).sum := by
  suffices h : ∀ m : CMap,
      pathCount (results.foldl (fun merged result =>
        result.foldl (fun acc kv => cmapAppend acc kv.1 kv.2) merged) m) p =
      pathCount m p + (results.map (fun r => pathCount r p)).sum by
    have := h []
    simpa [mergeClassificationResults, pathCount] using this
  induction results with
  | nil => intro m; simp
  | cons r rest ih =>
    intro m
    rw [List.foldl_cons, ih, pathCount_foldl_append]
    simp only [List.map_cons, List.sum_cons]
    omega

lemma totalLen_merge (results : List CMap) :
    totalLen (mergeClassificationResults results) =
      (results.map totalLen).sum := by
  suffices h : ∀ m : CMap,
      totalLen (results.foldl (fun merged result =>
        result.foldl (fun acc kv => cmapAppend acc kv.1 kv.2) merged) m) =
      totalLen m + (results.map totalLen).sum by
    have := h []
    simpa [mergeClassificationResults, totalLen] using this
  induction results with
  | nil => intro m; simp
  | cons r rest ih =>
    intro m
    rw [List.foldl_cons, ih, totalLen_foldl_append]
    simp only [List.map_cons, List.sum_cons]
    omega

lemma matchedRecords_cons_pos {chunk : List FileInfo} {c q : Str}
    {rest : List Str} (hq : hasPath chunk q = true) :
    matchedRecords chunk c (q :: rest) = ⟨q, c⟩ :: matchedRecords chunk c rest := by
  simp [matchedRecords, List.filter_cons, hq]

lemma matchedRecords_cons_neg {chunk : List FileInfo} {c q : Str}
    {rest : List Str} (hq : hasPath chunk q = false) :
    matchedRecords chunk c (q :: rest) = matchedRecords chunk c rest := by
  simp [matchedRecords, List.filter_cons, hq]

lemma pathOcc_cons (p : Str) (f : FileInfo) (l : List FileInfo) :
    pathOcc p (f :: l) = (if f.path = p then 1 else 0) + pathOcc p l := by
  by_cases h : f.path = p <;> simp [pathOcc, List.filter_cons, h, Nat.add_comm]

/-- Path occurrences among the matched records of one category. -/
lemma pathOcc_matchedRecords (chunk : List FileInfo) (c : Str)
    (paths : List Str) (p : Str) :
    pathOcc p (matchedRecords chunk c paths) =
      if hasPath chunk p = true then paths.count p else 0 := by
  induction paths with
  | nil => simp [matchedRecords, pathOcc]
  | cons q rest ih =>
    cases hq : hasPath chunk q with
    | true =>
      rw [matchedRecords_cons_pos hq, pathOcc_cons, ih]
      by_cases hqp : q = p
      · subst hqp
        simp [hq, List.count_cons, Nat.add_comm]
      · simp [List.count_cons, hqp]
    | false =>
      rw [matchedRecords_cons_neg hq, ih]
      by_cases hqp : q = p
      · subst hqp
        simp [hq]
      · simp [List.count_cons, hqp]

/-! ### Per-path accounting through the Dispatcher (C1/C2 machinery) -/

lemma hasPath_iff_mem {l : List FileInfo} {p : Str} :
    hasPath l p = true ↔ p ∈ l.map (fun f => f.path) := by
  simp [hasPath, List.any_eq_true, List.mem_map]

/-- Whether a reply lists a given path. -/
def replyHasPath : ChunkReply → Str → Bool
  | .error _, _ => false
  | .ok cats, p => decide (p ∈ allPaths cats)

/-- Whether some chunk, starting at batch index `i`, contains path `p`
and has it listed in its own batch's reply. -/
def matchedIn (oracle : Nat → ChunkReply) :
    List (List FileInfo) → Nat → Str → Bool
  | [], _, _ => false
  | chunk :: rest, i, p =>
    (hasPath chunk p && replyHasPath (oracle i) p) ||
      matchedIn oracle rest (i + 1) p

lemma matchedIn_false (oracle : Nat → ChunkReply) (p : Str) :
    ∀ (chunks : List (List FileInfo)) (i : Nat),
      (∀ c ∈ chunks, hasPath c p = false) →
      matchedIn oracle chunks i p = false := by
  intro chunks
  induction chunks with
  | nil => intro i _; rfl
  | cons chunk rest ih =>
    intro i h
    show ((hasPath chunk p && replyHasPath (oracle i) p) || _) = false
    rw [h chunk (List.mem_cons_self _ _), ih (i + 1)
      (fun c hc => h c (List.mem_cons_of_mem _ hc))]
    rfl

lemma pathCount_resolved (chunk : List FileInfo)
    (cats : List (Str × List Str)) (p : Str) :
    pathCount (cats.map (fun kv => (kv.1, matchedRecords chunk kv.1 kv.2))) p =
      if hasPath chunk p = true then (allPaths cats).count p else 0 := by
  induction cats with
  | nil => simp [pathCount, allPaths]
  | cons kv rest ih =>
    simp only [List.map_cons, pathCount, List.sum_cons] at ih ⊢
    rw [pathOcc_matchedRecords, ih]
    have hall : allPaths (kv :: rest) = kv.2 ++ allPaths rest := by
      simp [allPaths]
    rw [hall, List.count_append]
    by_cases hp : hasPath chunk p = true <;> simp [hp]

lemma processChunksAux_pathCount (oracle : Nat → ChunkReply) (p : Str) :
    ∀ (chunks : List (List FileInfo)) (i : Nat) (ps : PSet),
      (∀ j, j < chunks.length → chunkFails (oracle (i + j)) = false) →
      (∀ j cats, j < chunks.length → oracle (i + j) = .ok cats →
        (cats.map (fun kv => kv.1)).Nodup ∧
        (hasPath (chunks.getD j []) p = true → (allPaths cats).count p ≤ 1)) →
      ((chunks.flatten.map (fun f => f.path)).count p ≤ 1) →
      ((processChunksAux oracle chunks i ps).1.map
          (fun m => pathCount m p)).sum =
        (if matchedIn oracle chunks i p then 1 else 0) ∧
      psetGet (processChunksAux oracle chunks i ps).2.1 p =
        (psetGet ps p || matchedIn oracle chunks i p) := by
  intro chunks
  induction chunks with
  | nil =>
    intro i ps _ _ _
    simp [processChunksAux, matchedIn]
  | cons chunk rest ih =>
    intro i ps hfail hone hdisj
    have hf0 : chunkFails (oracle i) = false := by simpa using hfail 0 (by simp)
    obtain ⟨cats, hcats, hlen, hok⟩ := pcc_of_ok chunk ps (oracle i) hf0
    have hkeys := (hone 0 cats (by simp) (by simpa using hcats.symm ▸ hcats)).1
    have hres := resolveChunk_eq chunk cats ps hkeys
    have hok' : processClassificationChunk chunk (oracle i) ps =
        .ok (cats.map (fun kv => (kv.1, matchedRecords chunk kv.1 kv.2)),
          markTrue ps ((allPaths cats).filter (fun q => hasPath chunk q))) := by
      rw [hok, hres]
    rcases hrec : processChunksAux oracle rest (i + 1)
        (markTrue ps ((allPaths cats).filter (fun q => hasPath chunk q)))
      with ⟨ms, psf, errs⟩
    have haux : processChunksAux oracle (chunk :: rest) i ps =
        (cats.map (fun kv => (kv.1, matchedRecords chunk kv.1 kv.2)) :: ms,
          psf, errs) := by
      simp only [processChunksAux, hok', hrec]
    -- instantiate the induction hypothesis on the tail
    have hfail' : ∀ j, j < rest.length → chunkFails (oracle (i + 1 + j)) = false := by
      intro j hj
      have := hfail (j + 1) (by simpa using Nat.succ_lt_succ hj)
      rwa [show i + (j + 1) = i + 1 + j by omega] at this
    have hone' : ∀ j cats', j < rest.length → oracle (i + 1 + j) = .ok cats' →
        (cats'.map (fun kv => kv.1)).Nodup ∧
        (hasPath (rest.getD j []) p = true → (allPaths cats').count p ≤ 1) := by
      intro j cats' hj hoc
      have := hone (j + 1) cats' (by simpa using Nat.succ_lt_succ hj)
        (by rwa [show i + (j + 1) = i + 1 + j by omega])
      simpa using this
    have hdisj' : ((rest.flatten.map (fun f => f.path)).count p ≤ 1) := by
      have : (((chunk :: rest).flatten).map (fun f => f.path)).count p =
          ((chunk.map (fun f => f.path)).count p) +
          ((rest.flatten.map (fun f => f.path)).count p) := by
        simp [List.flatten_cons, List.map_append, List.count_append]
      omega
    obtain ⟨ihsum, ihget⟩ := ih (i + 1)
      (markTrue ps ((allPaths cats).filter (fun q => hasPath chunk q)))
      hfail' hone' hdisj'
    rw [hrec] at ihsum ihget
    simp only at ihsum ihget
    have hgetmark : psetGet
        (markTrue ps ((allPaths cats).filter (fun q => hasPath chunk q))) p =
        (psetGet ps p || (hasPath chunk p && decide (p ∈ allPaths cats))) := by
      rw [psetGet_markTrue]
      by_cases hp : hasPath chunk p = true
      · simp [List.mem_filter, hp]
      · have hp' : hasPath chunk p = false := by
          cases h : hasPath chunk p
          · rfl
          · exact absurd h hp
        simp [List.mem_filter, hp']
    have hreply : replyHasPath (oracle i) p = decide (p ∈ allPaths cats) := by
      rw [hcats]
      rfl
    have hmatched : matchedIn oracle (chunk :: rest) i p =
        ((hasPath chunk p && decide (p ∈ allPaths cats)) ||
          matchedIn oracle rest (i + 1) p) := by
      show ((hasPath chunk p && replyHasPath (oracle i) p) || _) = _
      rw [hreply]
    rw [haux, hmatched]
    simp only [List.map_cons, List.sum_cons]
    rw [pathCount_resolved, ihsum, ihget, hgetmark]
    cases hchunk : hasPath chunk p with
    | false =>
      simp only [Bool.false_and, Bool.false_or, Bool.or_assoc]
      constructor
      · simp
      · trivial
    | true =>
      have hcount : (allPaths cats).count p ≤ 1 :=
        (hone 0 cats (by simp) (by simpa using hcats.symm ▸ hcats)).2
          (by simpa using hchunk)
      have hrestfalse : matchedIn oracle rest (i + 1) p = false := by
        apply matchedIn_false
        intro c hc
        cases hcp : hasPath c p with
        | false => rfl
        | true =>
          exfalso
          have hmemc : p ∈ c.map (fun f => f.path) := hasPath_iff_mem.mp hcp
          have hmemflat : p ∈ rest.flatten.map (fun f => f.path) := by
            simp only [List.mem_map] at hmemc ⊢
            obtain ⟨f, hf, hfp⟩ := hmemc
            exact ⟨f, List.mem_flatten.mpr ⟨c, hc, hf⟩, hfp⟩
          have h1 : 0 < (rest.flatten.map (fun f => f.path)).count p :=
            List.count_pos_iff.mpr hmemflat
          have hmemchunk : p ∈ chunk.map (fun f => f.path) :=
            hasPath_iff_mem.mp hchunk
          have h2 : 0 < (chunk.map (fun f => f.path)).count p :=
            List.count_pos_iff.mpr hmemchunk
          have h3 : (((chunk :: rest).flatten).map (fun f => f.path)).count p =
              ((chunk.map (fun f => f.path)).count p) +
              ((rest.flatten.map (fun f => f.path)).count p) := by
            simp [List.flatten_cons, List.map_append, List.count_append]
          omega
      rw [hrestfalse]
      simp only [Bool.true_and, Bool.or_false]
      constructor
      · by_cases hp : p ∈ allPaths cats
        · have h1 : 0 < (allPaths cats).count p := List.count_pos_iff.mpr hp
          have : (allPaths cats).count p = 1 := by omega
          simp [hp, this]
        · have : (allPaths cats).count p = 0 := List.count_eq_zero.mpr hp
          simp [hp, this]
      · trivial

lemma processChunksAux_struct (oracle : Nat → ChunkReply) :
    ∀ (chunks : List (List FileInfo)) (i : Nat) (ps : PSet),
      (∀ j, j < chunks.length → chunkFails (oracle (i + j)) = false) →
      (∀ j cats, j < chunks.length → oracle (i + j) = .ok cats →
        (cats.map (fun kv => kv.1)).Nodup) →
      (∀ q, q ∈ ps.map (fun kv => kv.1) →
        q ∈ (processChunksAux oracle chunks i ps).2.1.map (fun kv => kv.1)) ∧
      (∀ q, q ∈ (processChunksAux oracle chunks i ps).2.1.map (fun kv => kv.1) →
        q ∈ ps.map (fun kv => kv.1) ∨ ∃ c ∈ chunks, hasPath c q = true) ∧
      ((ps.map (fun kv => kv.1)).Nodup →
        ((processChunksAux oracle chunks i ps).2.1.map (fun kv => kv.1)).Nodup) ∧
      (∀ m0 ∈ (processChunksAux oracle chunks i ps).1, ∀ kv ∈ m0, ∀ f ∈ kv.2,
        ∃ c ∈ chunks, hasPath c f.path = true) := by
  intro chunks
  induction chunks with
  | nil =>
    intro i ps _ _
    refine ⟨fun q hq => hq, fun q hq => Or.inl hq, fun h => h, ?_⟩
    intro m0 hm0
    simp [processChunksAux] at hm0
  | cons chunk rest ih =>
    intro i ps hfail hone
    have hf0 : chunkFails (oracle i) = false := by simpa using hfail 0 (by simp)
    obtain ⟨cats, hcats, hlen, hok⟩ := pcc_of_ok chunk ps (oracle i) hf0
    have hkeys := hone 0 cats (by simp) (by simpa using hcats.symm ▸ hcats)
    have hres := resolveChunk_eq chunk cats ps hkeys
    have hok' : processClassificationChunk chunk (oracle i) ps =
        .ok (cats.map (fun kv => (kv.1, matchedRecords chunk kv.1 kv.2)),
          markTrue ps ((allPaths cats).filter (fun q => hasPath chunk q))) := by
      rw [hok, hres]
    rcases hrec : processChunksAux oracle rest (i + 1)
        (markTrue ps ((allPaths cats).filter (fun q => hasPath chunk q)))
      with ⟨ms, psf, errs⟩
    have haux : processChunksAux oracle (chunk :: rest) i ps =
        (cats.map (fun kv => (kv.1, matchedRecords chunk kv.1 kv.2)) :: ms,
          psf, errs) := by
      simp only [processChunksAux, hok', hrec]
    have hfail' : ∀ j, j < rest.length → chunkFails (oracle (i + 1 + j)) = false := by
      intro j hj
      have := hfail (j + 1) (by simpa using Nat.succ_lt_succ hj)
      rwa [show i + (j + 1) = i + 1 + j by omega] at this
    have hone' : ∀ j cats', j < rest.length → oracle (i + 1 + j) = .ok cats' →
        (cats'.map (fun kv => kv.1)).Nodup := by
      intro j cats' hj hoc
      exact hone (j + 1) cats' (by simpa using Nat.succ_lt_succ hj)
        (by rwa [show i + (j + 1) = i + 1 + j by omega])
    obtain ⟨ih1, ih2, ih3, ih4⟩ := ih (i + 1)
      (markTrue ps ((allPaths cats).filter (fun q => hasPath chunk q)))
      hfail' hone'
    rw [hrec] at ih1 ih2 ih3 ih4
    simp only at ih1 ih2 ih3 ih4
    rw [haux]
    simp only
    refine ⟨?_, ?_, ?_, ?_⟩
    · intro q hq
      exact ih1 q (mem_keys_markTrue.mpr (Or.inl hq))
    · intro q hq
      rcases ih2 q hq with hq' | ⟨c, hc, hcq⟩
      · rcases mem_keys_markTrue.mp hq' with hps | hmark
        · exact Or.inl hps
        · simp only [List.mem_filter] at hmark
          exact Or.inr ⟨chunk, List.mem_cons_self _ _, hmark.2⟩
      · exact Or.inr ⟨c, List.mem_cons_of_mem _ hc, hcq⟩
    · intro hnd
      exact ih3 (keys_markTrue_nodup hnd)
    · intro m0 hm0 kv hkv f hf
      rcases List.mem_cons.mp hm0 with hm0' | hm0'
      · subst hm0'
        simp only [List.mem_map] at hkv
        obtain ⟨⟨c, paths⟩, hmem, hkveq⟩ := hkv
        subst hkveq
        simp only [matchedRecords, List.mem_map, List.mem_filter] at hf
        obtain ⟨q, ⟨-, hq⟩, hfeq⟩ := hf
        subst hfeq
        exact ⟨chunk, List.mem_cons_self _ _, hq⟩
      · obtain ⟨c, hc, hcq⟩ := ih4 m0 hm0' kv hkv f hf
        exact ⟨c, List.mem_cons_of_mem _ hc, hcq⟩

/-! ### Summing per-path counts (C1/C2 machinery) -/

lemma sum_map_add {α : Type} (l : List α) (g h : α → Nat) :
    (l.map (fun a => g a + h a)).sum = (l.map g).sum + (l.map h).sum := by
  induction l with
  | nil => simp
  | cons a t ih =>
    simp only [List.map_cons, List.sum_cons, ih]
    omega

lemma sum_indicator_eq_count (P : List Str) (a : Str) :
    (P.map (fun p => if a = p then 1 else 0)).sum = P.count a := by
  induction P with
  | nil => simp
  | cons q rest ih =>
    simp only [List.map_cons, List.sum_cons, List.count_cons, ih]
    by_cases h : a = q
    · simp [h]
      omega
    · have h' : ¬(q = a) := fun hh => h hh.symm
      simp [h, h']

lemma sum_ones {α : Type} (l : List α) :
    (l.map (fun _ => (1 : Nat))).sum = l.length := by
  induction l with
  | nil => rfl
  | cons a t ih => simp [ih, Nat.add_comm]

lemma count_eq_one_of_nodup_mem {P : List Str} {a : Str}
    (hP : P.Nodup) (ha : a ∈ P) : P.count a = 1 := by
  induction P with
  | nil => exact absurd ha (List.not_mem_nil a)
  | cons q rest ih =>
    rw [List.nodup_cons] at hP
    rcases List.mem_cons.mp ha with h | h
    · subst h
      rw [List.count_cons]
      rw [List.count_eq_zero.mpr hP.1]
      simp
    · have hne : ¬ (q = a) := fun hh => hP.1 (hh ▸ h)
      rw [List.count_cons, ih hP.2 h]
      simp [hne]

lemma length_eq_sum_pathOcc (l : List FileInfo) (P : List Str)
    (hP : P.Nodup) (hsub : ∀ f ∈ l, f.path ∈ P) :
    l.length = (P.map (fun p => pathOcc p l)).sum := by
  induction l with
  | nil => simp [pathOcc]
  | cons f t ih =>
    have hf := hsub f (List.mem_cons_self _ _)
    have ht : ∀ g ∈ t, g.path ∈ P := fun g hg => hsub g (List.mem_cons_of_mem _ hg)
    have hmap : P.map (fun p => pathOcc p (f :: t)) =
        P.map (fun p => (if f.path = p then 1 else 0) + pathOcc p t) :=
      List.map_congr_left (fun p _ => pathOcc_cons p f t)
    rw [List.length_cons, hmap, sum_map_add, sum_indicator_eq_count,
      count_eq_one_of_nodup_mem hP hf, ih ht]
    omega

lemma totalLen_eq_sum_pathCount (m : CMap) (P : List Str) (hP : P.Nodup)
    (hsub : ∀ kv ∈ m, ∀ f ∈ kv.2, f.path ∈ P) :
    totalLen m = (P.map (fun p => pathCount m p)).sum := by
  induction m with
  | nil => simp [totalLen, pathCount]
  | cons kv rest ih =>
    have hkv : ∀ f ∈ kv.2, f.path ∈ P :=
      fun f hf => hsub kv (List.mem_cons_self _ _) f hf
    have hrest : ∀ kv' ∈ rest, ∀ f ∈ kv'.2, f.path ∈ P :=
      fun kv' h f hf => hsub kv' (List.mem_cons_of_mem _ h) f hf
    have hmap : P.map (fun p => pathCount (kv :: rest) p) =
        P.map (fun p => pathOcc p kv.2 + pathCount rest p) :=
      List.map_congr_left (fun p _ => by simp [pathCount])
    rw [hmap, sum_map_add]
    simp only [totalLen, List.map_cons, List.sum_cons]
    rw [← length_eq_sum_pathOcc kv.2 P hP hkv, ← ih hrest]
    rfl

/-! ### Record provenance through the Merger -/

lemma records_cmapAppend {k : Str} {fs : List FileInfo} {f : FileInfo} :
    ∀ (m : CMap) (kv : Str × List FileInfo),
      kv ∈ cmapAppend m k fs → f ∈ kv.2 →
      (∃ kv' ∈ m, f ∈ kv'.2) ∨ f ∈ fs := by
  intro m
  induction m with
  | nil =>
    intro kv hkv hf
    simp only [cmapAppend, cmapGet, List.find?, cmapSet, List.mem_singleton] at hkv
    subst hkv
    simp only [List.nil_append] at hf
    exact Or.inr hf
  | cons av rest ih =>
    intro kv hkv hf
    cases av with
    | mk a v =>
      by_cases h : a = k
      · subst h
        have hget : cmapGet ((a, v) :: rest) a = v := by
          simp [cmapGet, List.find?]
        have hset : cmapSet ((a, v) :: rest) a (v ++ fs) = (a, v ++ fs) :: rest := by
          show (if a = a then _ else _) = _
          rw [if_pos rfl]
        rw [cmapAppend, hget, hset] at hkv
        rcases List.mem_cons.mp hkv with hkv' | hkv'
        · subst hkv'
          rcases List.mem_append.mp hf with hv | hfs
          · exact Or.inl ⟨(a, v), List.mem_cons_self _ _, hv⟩
          · exact Or.inr hfs
        · exact Or.inl ⟨kv, List.mem_cons_of_mem _ hkv', hf⟩
      · have hget : cmapGet ((a, v) :: rest) k = cmapGet rest k := by
          simp only [cmapGet, List.find?]
          rw [show (decide (a = k)) = false by simpa using h]
        have hset : cmapSet ((a, v) :: rest) k (cmapGet rest k ++ fs) =
            (a, v) :: cmapSet rest k (cmapGet rest k ++ fs) := by
          show (if a = k then _ else _) = _
          rw [if_neg h]
        rw [cmapAppend, hget, hset] at hkv
        rcases List.mem_cons.mp hkv with hkv' | hkv'
        · subst hkv'
          exact Or.inl ⟨(a, v), List.mem_cons_self _ _, hf⟩
        · rcases ih kv (by rw [cmapAppend]; exact hkv') hf
            with ⟨kv', hkv'', hf'⟩ | hfs
          · exact Or.inl ⟨kv', List.mem_cons_of_mem _ hkv'', hf'⟩
          · exact Or.inr hfs

lemma records_foldl_cmapAppend {f : FileInfo} :
    ∀ (result : CMap) (acc : CMap) (kv : Str × List FileInfo),
      kv ∈ result.foldl (fun acc kv => cmapAppend acc kv.1 kv.2) acc →
      f ∈ kv.2 →
      (∃ kv' ∈ acc, f ∈ kv'.2) ∨ (∃ kv' ∈ result, f ∈ kv'.2) := by
  intro result
  induction result with
  | nil => intro acc kv hkv hf; exact Or.inl ⟨kv, hkv, hf⟩
  | cons r rest ih =>
    intro acc kv hkv hf
    rw [List.foldl_cons] at hkv
    rcases ih _ kv hkv hf with ⟨kv', hkv', hf'⟩ | ⟨kv', hkv', hf'⟩
    · rcases records_cmapAppend acc kv' hkv' hf' with ⟨kv'', hkv'', hf''⟩ | hfs
      · exact Or.inl ⟨kv'', hkv'', hf''⟩
      · exact Or.inr ⟨r, List.mem_cons_self _ _, hfs⟩
    · exact Or.inr ⟨kv', List.mem_cons_of_mem _ hkv', hf'⟩

lemma records_merge_aux {f : FileInfo} :
    ∀ (results : List CMap) (acc : CMap) (kv : Str × List FileInfo),
      kv ∈ results.foldl (fun merged result =>
        result.foldl (fun acc kv => cmapAppend acc kv.1 kv.2) merged) acc →
      f ∈ kv.2 →
      (∃ kv' ∈ acc, f ∈ kv'.2) ∨ ∃ r ∈ results, ∃ kv' ∈ r, f ∈ kv'.2 := by
  intro results
  induction results with
  | nil => intro acc kv hkv hf; exact Or.inl ⟨kv, hkv, hf⟩
  | cons r rest ih =>
    intro acc kv hkv hf
    rw [List.foldl_cons] at hkv
    rcases ih _ kv hkv hf with hacc | hr
    · rcases hacc with ⟨kv', hkv', hf'⟩
      rcases records_foldl_cmapAppend r _ kv' hkv' hf' with ⟨kv'', hkv'', hf''⟩ | hrr
      · exact Or.inl ⟨kv'', hkv'', hf''⟩
      · exact Or.inr ⟨r, List.mem_cons_self _ _, hrr⟩
    · rcases hr with ⟨r', hr', hkv'⟩
      exact Or.inr ⟨r', List.mem_cons_of_mem _ hr', hkv'⟩

lemma records_merge {results : List CMap} {kv : Str × List FileInfo}
    {f : FileInfo} (hkv : kv ∈ mergeClassificationResults results)
    (hf : f ∈ kv.2) :
    ∃ r ∈ results, ∃ kv' ∈ r, f ∈ kv'.2 := by
  rcases records_merge_aux results [] kv hkv hf with ⟨kv', hkv', -⟩ | hr
  · simp at hkv'
  · exact hr

/-! ### The initial ProcessedSet -/

lemma psetGet_init (files : List FileInfo) :
    ∀ (ps : PSet), (∀ q, psetGet ps q = false) →
      ∀ q, psetGet (files.foldl (fun ps f => psetSet ps f.path false) ps) q = false := by
  induction files with
  | nil => intro ps h q; exact h q
  | cons f rest ih =>
    intro ps h q
    rw [List.foldl_cons]
    refine ih (psetSet ps f.path false) ?_ q
    intro q'
    by_cases hq : q' = f.path
    · subst hq
      exact psetGet_psetSet_self ps _ false
    · rw [psetGet_psetSet_ne ps f.path false q' hq]
      exact h q'

lemma mem_keys_init (files : List FileInfo) :
    ∀ (ps : PSet) (q : Str),
      q ∈ (files.foldl (fun ps f => psetSet ps f.path false) ps).map (fun kv => kv.1) ↔
        q ∈ ps.map (fun kv => kv.1) ∨ q ∈ files.map (fun f => f.path) := by
  induction files with
  | nil => intro ps q; simp
  | cons f rest ih =>
    intro ps q
    rw [List.foldl_cons, ih, mem_keys_psetSet]
    simp [List.mem_cons]
    tauto

lemma keys_init_nodup (files : List FileInfo) :
    ∀ (ps : PSet), (ps.map (fun kv => kv.1)).Nodup →
      ((files.foldl (fun ps f => psetSet ps f.path false) ps).map
        (fun kv => kv.1)).Nodup := by
  induction files with
  | nil => intro ps h; exact h
  | cons f rest ih =>
    intro ps h
    rw [List.foldl_cons]
    exact ih _ (keys_psetSet_nodup h)

/-! ### The whole-call per-path count -/

/-- The successful-return form of `ClassifyFiles`. -/
lemma ClassifyFiles_ok_form (files : List FileInfo) (oracle : Nat → ChunkReply)
    (m : CMap) (hok : ClassifyFiles files oracle = (some m, none)) :
    ∃ ms psf,
      processChunksAux oracle (splitFileList files) 0
        (files.foldl (fun ps f => psetSet ps f.path false) []) = (ms, psf, []) ∧
      m = mergeClassificationResults
        (if (handleUnclassifiedFiles files psf).length > 0
         then ms ++ [handleUnclassifiedFiles files psf] else ms) := by
  rcases haux : processChunksAux oracle (splitFileList files) 0
      (files.foldl (fun ps f => psetSet ps f.path false) []) with ⟨ms, psf, errs⟩
  simp only [ClassifyFiles, processChunksConcurrently] at hok
  rw [haux] at hok
  simp only at hok
  cases errs with
  | cons e es => simp at hok
  | nil =>
    simp only [Prod.mk.injEq, Option.some.injEq] at hok
    exact ⟨ms, psf, haux, hok.1.symm⟩

/-- Per-path count of the final map of a successful `ClassifyFiles` run:
under distinct input paths and replies that list each batch path at most
once, every input path occurs exactly once in the final map and every
other path not at all. -/
lemma classify_pathCount (files : List FileInfo) (oracle : Nat → ChunkReply)
    (hnd : (files.map (fun f => f.path)).Nodup)
    (hone : ∀ i cats, i < (splitFileList files).length → oracle i = .ok cats →
      (cats.map (fun kv => kv.1)).Nodup ∧
      ∀ q ∈ ((splitFileList files).getD i []).map (fun f => f.path),
        (allPaths cats).count q ≤ 1)
    (m : CMap) (hok : ClassifyFiles files oracle = (some m, none)) :
    (∀ q, q ∈ files.map (fun f => f.path) → pathCount m q = 1) ∧
    (∀ q, q ∉ files.map (fun f => f.path) → pathCount m q = 0) ∧
    (∀ kv ∈ m, ∀ f ∈ kv.2, f.path ∈ files.map (fun f => f.path)) := by
  obtain ⟨ms, psf, haux, hm⟩ := ClassifyFiles_ok_form files oracle m hok
  have hflat : (splitFileList files).flatten = files :=
    splitChunks_flatten _ _ (Nat.le_refl _)
  have herrs0 : ∀ j, j < (splitFileList files).length →
      chunkFails (oracle (0 + j)) = false := by
    have hiff := (processChunksAux_errs_nil_iff oracle (splitFileList files) 0
      (files.foldl (fun ps f => psetSet ps f.path false) [])).mp (by rw [haux])
    exact hiff
  obtain ⟨hk1, hk2, hk3, hk4⟩ := processChunksAux_struct oracle
    (splitFileList files) 0 (files.foldl (fun ps f => psetSet ps f.path false) [])
    herrs0 (fun j cats hj hoc => (hone j cats (by simpa using hj)
      (by rwa [Nat.zero_add] at hoc)).1)
  rw [haux] at hk1 hk2 hk3 hk4
  simp only at hk1 hk2 hk3 hk4
  have hps0nodup : ((files.foldl (fun ps f => psetSet ps f.path false) []).map
      (fun kv => kv.1)).Nodup := keys_init_nodup files [] (by simp)
  have hpsfnodup : (psf.map (fun kv => kv.1)).Nodup := hk3 hps0nodup
  have hget0 : ∀ q, psetGet
      (files.foldl (fun ps f => psetSet ps f.path false) []) q = false :=
    psetGet_init files [] (fun q => rfl)
  -- the dispatcher per-path facts, for an arbitrary path
  have hcore : ∀ q,
      ((ms.map (fun m0 => pathCount m0 q)).sum =
        if matchedIn oracle (splitFileList files) 0 q then 1 else 0) ∧
      psetGet psf q = matchedIn oracle (splitFileList files) 0 q := by
    intro q
    have hdisj : (((splitFileList files).flatten.map (fun f => f.path)).count q ≤ 1) := by
      rw [hflat]
      by_cases hmem : q ∈ files.map (fun f => f.path)
      · rw [count_eq_one_of_nodup_mem hnd hmem]
      · rw [List.count_eq_zero.mpr hmem]
        omega
    have hone' : ∀ j cats, j < (splitFileList files).length →
        oracle (0 + j) = .ok cats →
        (cats.map (fun kv => kv.1)).Nodup ∧
        (hasPath ((splitFileList files).getD j []) q = true →
          (allPaths cats).count q ≤ 1) := by
      intro j cats hj hoc
      rw [Nat.zero_add] at hoc
      obtain ⟨hnd', hcnt⟩ := hone j cats hj hoc
      exact ⟨hnd', fun hhp => hcnt q (hasPath_iff_mem.mp hhp)⟩
    obtain ⟨hsum, hget⟩ := processChunksAux_pathCount oracle q
      (splitFileList files) 0 (files.foldl (fun ps f => psetSet ps f.path false) [])
      herrs0 hone' hdisj
    rw [haux] at hsum hget
    simp only at hsum hget
    rw [hget0 q, Bool.false_or] at hget
    exact ⟨hsum, hget⟩
  -- a path outside the input occurs in no chunk
  have hnotchunk : ∀ q, q ∉ files.map (fun f => f.path) →
      ∀ c ∈ splitFileList files, hasPath c q = false := by
    intro q hmem c hc
    cases hcp : hasPath c q with
    | false => rfl
    | true =>
      exfalso
      apply hmem
      have := hasPath_iff_mem.mp hcp
      simp only [List.mem_map] at this ⊢
      obtain ⟨f, hf, hfq⟩ := this
      exact ⟨f, by rw [← hflat]; exact List.mem_flatten.mpr ⟨c, hc, hf⟩, hfq⟩
  have hcu := fun q => count_unprocessed psf q hpsfnodup
  -- close the three statements, splitting once on the unclassified guard
  by_cases hun : ((psf.filter (fun kv => !kv.2)).map (fun kv => kv.1)).length > 0
  · have hhandle : handleUnclassifiedFiles files psf =
        [(unclassifiedName, matchedRecords files unclassifiedName
          ((psf.filter (fun kv => !kv.2)).map (fun kv => kv.1)))] := by
      rw [handleUnclassifiedFiles_eq, if_pos hun]
    have hmm : m = mergeClassificationResults (ms ++
        [[(unclassifiedName, matchedRecords files unclassifiedName
          ((psf.filter (fun kv => !kv.2)).map (fun kv => kv.1)))]]) := by
      rw [hm, hhandle]
      simp
    have hpc : ∀ q, pathCount m q =
        (if matchedIn oracle (splitFileList files) 0 q then 1 else 0) +
        (if hasPath files q = true then
          ((psf.filter (fun kv => !kv.2)).map (fun kv => kv.1)).count q else 0) := by
      intro q
      rw [hmm, pathCount_merge, List.map_append, List.sum_append, (hcore q).1]
      congr 1
      simp only [List.map_cons, List.map_nil, List.sum_cons, List.sum_nil]
      rw [show pathCount [(unclassifiedName, matchedRecords files unclassifiedName
          ((psf.filter (fun kv => !kv.2)).map (fun kv => kv.1)))] q =
        pathOcc q (matchedRecords files unclassifiedName
          ((psf.filter (fun kv => !kv.2)).map (fun kv => kv.1))) by
          simp [pathCount]]
      rw [pathOcc_matchedRecords]
      omega
    refine ⟨?_, ?_, ?_⟩
    · intro q hmem
      have hqkeys : q ∈ psf.map (fun kv => kv.1) :=
        hk1 q ((mem_keys_init files [] q).mpr (Or.inr hmem))
      have hhasfiles : hasPath files q = true := hasPath_iff_mem.mpr hmem
      rw [hpc q, if_pos hhasfiles, hcu q]
      cases hmat : matchedIn oracle (splitFileList files) 0 q with
      | true =>
        have hcond : ¬ (q ∈ psf.map (fun kv => kv.1) ∧ psetGet psf q = false) := by
          rintro ⟨-, hgf⟩
          rw [(hcore q).2, hmat] at hgf
          simp at hgf
        rw [if_neg hcond]
        simp
      | false =>
        have hcond : q ∈ psf.map (fun kv => kv.1) ∧ psetGet psf q = false :=
          ⟨hqkeys, by rw [(hcore q).2, hmat]⟩
        rw [if_pos hcond]
        simp
    · intro q hmem
      have hmat : matchedIn oracle (splitFileList files) 0 q = false :=
        matchedIn_false oracle q (splitFileList files) 0 (hnotchunk q hmem)
      have hhasfiles : hasPath files q = false := by
        cases h : hasPath files q with
        | false => rfl
        | true => exact absurd (hasPath_iff_mem.mp h) hmem
      rw [hpc q, hmat, hhasfiles]
      simp
    · intro kv hkv f hf
      obtain ⟨r, hr, kv', hkv', hf'⟩ := records_merge (hmm ▸ hkv) hf
      rcases List.mem_append.mp hr with hrms | hruncl
      · obtain ⟨c, hc, hcf⟩ := hk4 r hrms kv' hkv' f hf'
        have := hasPath_iff_mem.mp hcf
        simp only [List.mem_map] at this ⊢
        obtain ⟨g, hg, hgq⟩ := this
        exact ⟨g, by rw [← hflat]; exact List.mem_flatten.mpr ⟨c, hc, hg⟩, hgq⟩
      · rw [List.mem_singleton] at hruncl
        subst hruncl
        rw [List.mem_singleton] at hkv'
        subst hkv'
        simp only [matchedRecords, List.mem_map, List.mem_filter] at hf'
        obtain ⟨q, ⟨-, hq⟩, hfeq⟩ := hf'
        subst hfeq
        exact hasPath_iff_mem.mp hq
  · have hhandle : handleUnclassifiedFiles files psf = [] := by
      rw [handleUnclassifiedFiles_eq, if_neg hun]
    have hmm : m = mergeClassificationResults ms := by
      rw [hm, hhandle]
      simp
    have hunp : ((psf.filter (fun kv => !kv.2)).map (fun kv => kv.1)) = [] := by
      cases h : ((psf.filter (fun kv => !kv.2)).map (fun kv => kv.1)) with
      | nil => rfl
      | cons a t => exact absurd (by rw [h]; simp) hun
    refine ⟨?_, ?_, ?_⟩
    · intro q hmem
      have hqkeys : q ∈ psf.map (fun kv => kv.1) :=
        hk1 q ((mem_keys_init files [] q).mpr (Or.inr hmem))
      have hmat : matchedIn oracle (splitFileList files) 0 q = true := by
        cases hmat : matchedIn oracle (splitFileList files) 0 q with
        | true => rfl
        | false =>
          exfalso
          have hgetf : psetGet psf q = false := by rw [(hcore q).2, hmat]
          have hcond : q ∈ psf.map (fun kv => kv.1) ∧ psetGet psf q = false :=
            ⟨hqkeys, hgetf⟩
          have := hcu q
          rw [if_pos hcond, hunp] at this
          simp at this
      rw [hmm, pathCount_merge, (hcore q).1, hmat]
      rfl
    · intro q hmem
      have hmat : matchedIn oracle (splitFileList files) 0 q = false :=
        matchedIn_false oracle q (splitFileList files) 0 (hnotchunk q hmem)
      rw [hmm, pathCount_merge, (hcore q).1, hmat]
      rfl
    · intro kv hkv f hf
      obtain ⟨r, hr, kv', hkv', hf'⟩ := records_merge (hmm ▸ hkv) hf
      obtain ⟨c, hc, hcf⟩ := hk4 r hr kv' hkv' f hf'
      have := hasPath_iff_mem.mp hcf
      simp only [List.mem_map] at this ⊢
      obtain ⟨g, hg, hgq⟩ := this
      exact ⟨g, by rw [← hflat]; exact List.mem_flatten.mpr ⟨c, hc, hg⟩, hgq⟩

/-! ### Claim C1 — completeness (corrected) -/

/-- Claim C1 as stated is false: with one input file and a reply that
assigns its path to two categories, the resolver appends the file to
both lists and the final map holds 2 records for 1 input file. -/
theorem classify_completeness_cex :
    ([⟨['a'], []⟩] : List FileInfo) ≠ [] ∧
    (([⟨['a'], []⟩] : List FileInfo).map (fun f => f.path)).Nodup ∧
    ClassifyFiles [⟨['a'], []⟩]
      (fun _ => .ok [(['c', '1'], [['a']]), (['c', '2'], [['a']])]) =
      (some [(['c', '1'], [⟨['a'], ['c', '1']⟩]),
             (['c', '2'], [⟨['a'], ['c', '2']⟩])], none) ∧
    totalLen [(['c', '1'], [⟨['a'], ['c', '1']⟩]),
              (['c', '2'], [⟨['a'], ['c', '2']⟩])] ≠
      ([⟨['a'], []⟩] : List FileInfo).length := by
  decide

/-- Claim C1 amended: completeness holds provided each batch's reply
lists each of that batch's paths at most once in total (reply category
keys, being JSON object keys, are pairwise distinct).  Then for a
non-empty input with pairwise-distinct paths, a successful
`ClassifyFiles` returns a map whose list lengths sum to the input size,
with every input path occurring in exactly one category's list (omitted
files land in the reserved unclassified category). -/
theorem classify_completeness (files : List FileInfo) (oracle : Nat → ChunkReply)
    (_hne : files ≠ [])
    (hnd : (files.map (fun f => f.path)).Nodup)
    (hone : ∀ i cats, i < (splitFileList files).length → oracle i = .ok cats →
      (cats.map (fun kv => kv.1)).Nodup ∧
      ∀ q ∈ ((splitFileList files).getD i []).map (fun f => f.path),
        (allPaths cats).count q ≤ 1)
    (m : CMap) (hok : ClassifyFiles files oracle = (some m, none)) :
    totalLen m = files.length ∧ ∀ f ∈ files, pathCount m f.path = 1 := by
  obtain ⟨h1, h0, hsub⟩ := classify_pathCount files oracle hnd hone m hok
  constructor
  · rw [totalLen_eq_sum_pathCount m (files.map (fun f => f.path)) hnd hsub]
    have hmap : (files.map (fun f => f.path)).map (fun p => pathCount m p) =
        (files.map (fun f => f.path)).map (fun _ => 1) :=
      List.map_congr_left (fun p hp => h1 p hp)
    rw [hmap, sum_ones]
    simp
  · intro f hf
    exact h1 f.path (List.mem_map_of_mem _ hf)

/-- Witness for the amended C1: two files, a reply classifying only one
of them; the fallback restores completeness. -/
theorem classify_completeness_witness :
    ClassifyFiles [⟨['a'], []⟩, ⟨['b'], []⟩]
      (fun _ => .ok [(['c'], [['a']])]) =
      (some [(['c'], [⟨['a'], ['c']⟩]),
             (unclassifiedName, [⟨['b'], unclassifiedName⟩])], none) ∧
    totalLen [(['c'], [⟨['a'], ['c']⟩]),
              (unclassifiedName, [⟨['b'], unclassifiedName⟩])] = 2 := by
  constructor
  · decide
  · have h := classify_completeness [⟨['a'], []⟩, ⟨['b'], []⟩]
      (fun _ => .ok [(['c'], [['a']])]) (by decide) (by decide)
      (by
        intro i cats hi hoc
        have hi0 : i = 0 := by
          have : (splitFileList [(⟨['a'], []⟩ : FileInfo), ⟨['b'], []⟩]).length = 1 := by
            decide
          omega
        subst hi0
        injection hoc with h
        subst h
        exact ⟨by decide, by decide⟩)
      [(['c'], [⟨['a'], ['c']⟩]),
       (unclassifiedName, [⟨['b'], unclassifiedName⟩])] (by decide)
    exact h.1

/-! ### Claim C2 — no duplication (corrected) -/

lemma pathOcc_le_pathCount (p : Str) :
    ∀ (m : CMap) (kv : Str × List FileInfo), kv ∈ m →
      pathOcc p kv.2 ≤ pathCount m p := by
  intro m
  induction m with
  | nil => intro kv h; simp at h
  | cons a rest ih =>
    intro kv h
    simp only [pathCount, List.map_cons, List.sum_cons]
    rcases List.mem_cons.mp h with h' | h'
    · rw [h']
      omega
    · have := ih kv h'
      simp only [pathCount] at this
      omega

lemma two_entries_le (p : Str) :
    ∀ (m : CMap) (kv1 kv2 : Str × List FileInfo), kv1 ∈ m → kv2 ∈ m →
      kv1 ≠ kv2 → pathOcc p kv1.2 + pathOcc p kv2.2 ≤ pathCount m p := by
  intro m
  induction m with
  | nil => intro kv1 kv2 h1; simp at h1
  | cons a rest ih =>
    intro kv1 kv2 h1 h2 hne
    simp only [pathCount, List.map_cons, List.sum_cons]
    rcases List.mem_cons.mp h1 with h1' | h1'
    · rcases List.mem_cons.mp h2 with h2' | h2'
      · exact absurd (h1'.trans h2'.symm) hne
      · have := pathOcc_le_pathCount p rest kv2 h2'
        simp only [pathCount] at this
        rw [h1']
        omega
    · rcases List.mem_cons.mp h2 with h2' | h2'
      · have := pathOcc_le_pathCount p rest kv1 h1'
        simp only [pathCount] at this
        rw [h2']
        omega
      · have := ih kv1 kv2 h1' h2' hne
        simp only [pathCount] at this
        omega

lemma hasPath_pathOcc_pos {l : List FileInfo} {p : Str}
    (h : hasPath l p = true) : 1 ≤ pathOcc p l := by
  simp only [hasPath, List.any_eq_true] at h
  obtain ⟨f, hf, hfp⟩ := h
  have hmem : f ∈ l.filter (fun g => g.path = p) :=
    List.mem_filter.mpr ⟨hf, hfp⟩
  exact List.length_pos_of_mem hmem

/-- Claim C2 as stated is false: the concrete run of the C1
counterexample puts the path `a` under both reply categories. -/
theorem classify_no_duplication_cex :
    ClassifyFiles [⟨['a'], []⟩]
      (fun _ => .ok [(['c', '1'], [['a']]), (['c', '2'], [['a']])]) =
      (some [(['c', '1'], [⟨['a'], ['c', '1']⟩]),
             (['c', '2'], [⟨['a'], ['c', '2']⟩])], none) ∧
    (['c', '1'], [(⟨['a'], ['c', '1']⟩ : FileInfo)]) ∈
      [(['c', '1'], [(⟨['a'], ['c', '1']⟩ : FileInfo)]),
       (['c', '2'], [⟨['a'], ['c', '2']⟩])] ∧
    (['c', '2'], [(⟨['a'], ['c', '2']⟩ : FileInfo)]) ∈
      [(['c', '1'], [(⟨['a'], ['c', '1']⟩ : FileInfo)]),
       (['c', '2'], [⟨['a'], ['c', '2']⟩])] ∧
    (['c', '1'] : Str) ≠ ['c', '2'] ∧
    hasPath [⟨['a'], ['c', '1']⟩] ['a'] = true ∧
    hasPath [⟨['a'], ['c', '2']⟩] ['a'] = true := by
  decide

/-- Claim C2 amended: under pairwise-distinct input paths and replies
that list each of their batch's paths at most once (with distinct
category keys), no path appears in the lists of two different categories
of a successful result. -/
theorem classify_no_duplication (files : List FileInfo) (oracle : Nat → ChunkReply)
    (hnd : (files.map (fun f => f.path)).Nodup)
    (hone : ∀ i cats, i < (splitFileList files).length → oracle i = .ok cats →
      (cats.map (fun kv => kv.1)).Nodup ∧
      ∀ q ∈ ((splitFileList files).getD i []).map (fun f => f.path),
        (allPaths cats).count q ≤ 1)
    (m : CMap) (hok : ClassifyFiles files oracle = (some m, none))
    (c1 l1 c2 l2 : _) (h1 : (c1, l1) ∈ m) (h2 : (c2, l2) ∈ m) (hcc : c1 ≠ c2)
    (p : Str) (hp1 : hasPath l1 p = true) (hp2 : hasPath l2 p = true) :
    False := by
  obtain ⟨hin, hout, -⟩ := classify_pathCount files oracle hnd hone m hok
  have hle : pathCount m p ≤ 1 := by
    by_cases hmem : p ∈ files.map (fun f => f.path)
    · rw [hin p hmem]
    · rw [hout p hmem]
      omega
  have hpair : ((c1, l1) : Str × List FileInfo) ≠ (c2, l2) := by
    intro h
    exact hcc (congrArg Prod.fst h)
  have h2occ : pathOcc p l1 + pathOcc p l2 ≤ pathCount m p :=
    two_entries_le p m (c1, l1) (c2, l2) h1 h2 hpair
  have o1 := hasPath_pathOcc_pos hp1
  have o2 := hasPath_pathOcc_pos hp2
  omega

/-- Witness for the amended C2 on a concrete successful run with two
categories: the second category cannot also contain the first's path. -/
theorem classify_no_duplication_witness :
    ¬ (hasPath [⟨['b'], unclassifiedName⟩] ['a'] = true) := by
  intro hp2
  refine classify_no_duplication [⟨['a'], []⟩, ⟨['b'], []⟩]
    (fun _ => .ok [(['c'], [['a']])]) (by decide)
    (by
      intro i cats hi hoc
      have hi0 : i = 0 := by
        have : (splitFileList [(⟨['a'], []⟩ : FileInfo), ⟨['b'], []⟩]).length = 1 := by
          decide
        omega
      subst hi0
      injection hoc with h
      subst h
      exact ⟨by decide, by decide⟩)
    [(['c'], [⟨['a'], ['c']⟩]),
     (unclassifiedName, [⟨['b'], unclassifiedName⟩])] (by decide)
    ['c'] [⟨['a'], ['c']⟩] unclassifiedName [⟨['b'], unclassifiedName⟩]
    (by decide) (by decide) (by decide) ['a'] (by decide) hp2

/-! ### First/last index toolkit (C4/C5 machinery) -/

lemma firstIdx_eq_none_iff {a : Char} : ∀ {l : Str}, firstIdx a l = none ↔ a ∉ l := by
  intro l
  induction l with
  | nil => simp [firstIdx]
  | cons c cs ih =>
    by_cases h : c = a
    · subst h
      simp [firstIdx]
    · simp only [firstIdx, if_neg h, Option.map_eq_none', List.mem_cons, ih]
      constructor
      · rintro hn (he | hm)
        · exact h he.symm
        · exact hn hm
      · intro hn hm
        exact hn (Or.inr hm)

lemma firstIdx_get {a : Char} : ∀ {l : Str} {i : Nat},
    firstIdx a l = some i → l[i]? = some a := by
  intro l
  induction l with
  | nil => intro i h; simp [firstIdx] at h
  | cons c cs ih =>
    intro i h
    by_cases hc : c = a
    · subst hc
      have h0 : firstIdx c (c :: cs) = some 0 := by simp [firstIdx]
      rw [h0] at h
      injection h with h
      subst h
      simp
    · simp only [firstIdx, if_neg hc, Option.map_eq_some'] at h
      obtain ⟨j, hj, hij⟩ := h
      subst hij
      simpa using ih hj

lemma firstIdx_min {a : Char} : ∀ {l : Str} {i : Nat},
    firstIdx a l = some i → ∀ k, k < i → l[k]? ≠ some a := by
  intro l
  induction l with
  | nil => intro i h; simp [firstIdx] at h
  | cons c cs ih =>
    intro i h k hk
    by_cases hc : c = a
    · subst hc
      have h0 : firstIdx c (c :: cs) = some 0 := by simp [firstIdx]
      rw [h0] at h
      injection h with h
      intro _
      omega
    · simp only [firstIdx, if_neg hc, Option.map_eq_some'] at h
      obtain ⟨j, hj, hij⟩ := h
      subst hij
      cases k with
      | zero =>
        intro hcon
        exact hc (by simpa using hcon)
      | succ k' =>
        have := ih hj k' (by omega)
        simpa using this

lemma lastIdx_eq_none_iff {a : Char} : ∀ {l : Str}, lastIdx a l = none ↔ a ∉ l := by
  intro l
  induction l with
  | nil => simp [lastIdx]
  | cons c cs ih =>
    cases hcs : lastIdx a cs with
    | some k =>
      simp only [lastIdx, hcs]
      have : a ∈ cs := by
        by_contra hmem
        rw [← ih] at hmem
        rw [hcs] at hmem
        exact Option.some_ne_none k hmem
      simp [this]
    | none =>
      have hmem : a ∉ cs := ih.mp hcs
      simp only [lastIdx, hcs]
      by_cases hc : c = a
      · subst hc
        simp
      · simp only [if_neg hc, List.mem_cons]
        constructor
        · rintro - (he | hm)
          · exact hc he.symm
          · exact hmem hm
        · intro _
          trivial

lemma lastIdx_get {a : Char} : ∀ {l : Str} {i : Nat},
    lastIdx a l = some i → l[i]? = some a := by
  intro l
  induction l with
  | nil => intro i h; simp [lastIdx] at h
  | cons c cs ih =>
    intro i h
    cases hcs : lastIdx a cs with
    | some k =>
      rw [lastIdx, hcs] at h
      injection h with h
      subst h
      simpa using ih hcs
    | none =>
      rw [lastIdx, hcs] at h
      by_cases hc : c = a
      · rw [if_pos hc] at h
        injection h with h
        subst h
        simpa using hc
      · rw [if_neg hc] at h
        simp at h

lemma lastIdx_max {a : Char} : ∀ {l : Str} {i : Nat},
    lastIdx a l = some i → ∀ k, i < k → l[k]? ≠ some a := by
  intro l
  induction l with
  | nil => intro i h; simp [lastIdx] at h
  | cons c cs ih =>
    intro i h k hk
    cases hcs : lastIdx a cs with
    | some j =>
      rw [lastIdx, hcs] at h
      injection h with h
      subst h
      cases k with
      | zero => omega
      | succ k' =>
        have := ih hcs k' (by omega)
        simpa using this
    | none =>
      have hmem : a ∉ cs := lastIdx_eq_none_iff.mp hcs
      rw [lastIdx, hcs] at h
      cases k with
      | zero => omega
      | succ k' =>
        intro hcon
        apply hmem
        rw [List.mem_iff_getElem?]
        exact ⟨k', by simpa using hcon⟩

lemma lastIdx_append (a : Char) : ∀ (x y : Str),
    lastIdx a (x ++ y) =
      match lastIdx a y with
      | some k => some (x.length + k)
      | none => lastIdx a x := by
  intro x y
  induction x with
  | nil =>
    cases hy : lastIdx a y <;> simp [hy, lastIdx]
  | cons c cs ih =>
    have hstep : lastIdx a ((c :: cs) ++ y) =
        match lastIdx a (cs ++ y) with
        | some k => some (k + 1)
        | none => if c = a then some 0 else none := rfl
    rw [hstep, ih]
    cases hy : lastIdx a y with
    | some k =>
      show some (cs.length + k + 1) = some ((c :: cs).length + k)
      simp only [List.length_cons]
      congr 1
      omega
    | none =>
      cases hcs : lastIdx a cs with
      | some j =>
        have hr : lastIdx a (c :: cs) = some (j + 1) := by
          rw [lastIdx, hcs]
        rw [hr]
      | none =>
        have hr : lastIdx a (c :: cs) = if c = a then some 0 else none := by
          rw [lastIdx, hcs]
        rw [hr]

lemma lastIdx_replicate_self (a : Char) : ∀ (n : Nat), 0 < n →
    lastIdx a (List.replicate n a) = some (n - 1) := by
  intro n
  induction n with
  | zero => exact fun h => absurd h (by omega)
  | succ m ih =>
    intro _
    rw [List.replicate_succ]
    cases hm : m with
    | zero => simp [lastIdx]
    | succ m' =>
      subst hm
      have hrec := ih (by omega)
      rw [lastIdx, hrec]
      simp

lemma head?_take {l : Str} {n : Nat} (h : 0 < n) : (l.take n).head? = l.head? := by
  cases l with
  | nil => simp
  | cons c t =>
    cases n with
    | zero => omega
    | succ m => rfl

lemma exists_append_of_getLast? {l : Str} {a : Char} (h : l.getLast? = some a) :
    ∃ l', l = l' ++ [a] :=
  List.getLast?_eq_some_iff.mp h

/-! ### C5: normalizer extraction -/

/-- **C5.** Normalizer extraction: write `c` for the raw reply after
whitespace trimming and code-fence stripping (`stripWrap`).  If no `'}'`
occurs after any `'{'` in `c` (so `'{'` or `'}'` is absent, or the last
`'}'` does not follow the first `'{'`), `extractJSONFromContent` returns
`c` unchanged.  Otherwise `c` splits as `a ++ u ++ b` where `a` holds no
`'{'` and `b` holds no `'}'` and `u` starts with `'{'` and ends with
`'}'` — i.e. `u` is the inclusive substring from the first `'{'` to the
last `'}'` — and the function returns `u` when it validates, else
`fixIncompleteJSON u`. -/
theorem extract_normalizer_spec (content : Str) :
    (¬ (∃ i j : Nat, i < j ∧ (stripWrap content)[i]? = some '{' ∧
        (stripWrap content)[j]? = some '}') →
      extractJSONFromContent content = stripWrap content) ∧
    ((∃ i j : Nat, i < j ∧ (stripWrap content)[i]? = some '{' ∧
        (stripWrap content)[j]? = some '}') →
      ∃ a u b, stripWrap content = a ++ u ++ b ∧ '{' ∉ a ∧ '}' ∉ b ∧
        u.head? = some '{' ∧ u.getLast? = some '}' ∧
        extractJSONFromContent content =
          if isValidJSON u then u else fixIncompleteJSON u) := by
  constructor
  · intro hn
    simp only [extractJSONFromContent]
    cases hfi : firstIdx '{' (stripWrap content) with
    | none => cases hla : lastIdx '}' (stripWrap content) <;> rfl
    | some st =>
      cases hla : lastIdx '}' (stripWrap content) with
      | none => rfl
      | some en =>
        have hle : en ≤ st := by
          by_contra hlt
          push_neg at hlt
          exact hn ⟨st, en, hlt, firstIdx_get hfi, lastIdx_get hla⟩
        simp [hle]
  · rintro ⟨i, j, hij, hi, hj⟩
    have hmem_i : '{' ∈ stripWrap content := by
      rw [List.mem_iff_getElem?]
      exact ⟨i, hi⟩
    have hmem_j : '}' ∈ stripWrap content := by
      rw [List.mem_iff_getElem?]
      exact ⟨j, hj⟩
    obtain ⟨st, hfi⟩ : ∃ st, firstIdx '{' (stripWrap content) = some st := by
      cases hfi : firstIdx '{' (stripWrap content) with
      | none => exact absurd hmem_i (firstIdx_eq_none_iff.mp hfi)
      | some st => exact ⟨st, rfl⟩
    obtain ⟨en, hla⟩ : ∃ en, lastIdx '}' (stripWrap content) = some en := by
      cases hla : lastIdx '}' (stripWrap content) with
      | none => exact absurd hmem_j (lastIdx_eq_none_iff.mp hla)
      | some en => exact ⟨en, rfl⟩
    have hst_le : st ≤ i := by
      by_contra hlt
      push_neg at hlt
      exact firstIdx_min hfi i hlt hi
    have hen_ge : j ≤ en := by
      by_contra hlt
      push_neg at hlt
      exact lastIdx_max hla j hlt hj
    have hlt_sten : st < en := by omega
    have hen_len : en < (stripWrap content).length :=
      (List.getElem?_eq_some.mp (lastIdx_get hla)).1
    refine ⟨(stripWrap content).take st,
            ((stripWrap content).drop st).take (en + 1 - st),
            (stripWrap content).drop (en + 1), ?_, ?_, ?_, ?_, ?_, ?_⟩
    · have h1 : ((stripWrap content).drop st).take (en + 1 - st) ++
          ((stripWrap content).drop st).drop (en + 1 - st) =
          (stripWrap content).drop st := List.take_append_drop _ _
      have h2 : ((stripWrap content).drop st).drop (en + 1 - st) =
          (stripWrap content).drop (en + 1) := by
        rw [List.drop_drop]
        congr 1
        omega
      rw [List.append_assoc, ← h2, h1, List.take_append_drop]
    · intro hmem
      rw [List.mem_iff_getElem?] at hmem
      obtain ⟨k, hk⟩ := hmem
      have hklen : k < ((stripWrap content).take st).length :=
        (List.getElem?_eq_some.mp hk).1
      rw [List.length_take] at hklen
      have hkst : k < st := lt_of_lt_of_le hklen (min_le_left _ _)
      rw [List.getElem?_take_of_lt hkst] at hk
      exact firstIdx_min hfi k hkst hk
    · intro hmem
      rw [List.mem_iff_getElem?] at hmem
      obtain ⟨k, hk⟩ := hmem
      rw [List.getElem?_drop] at hk
      exact lastIdx_max hla (en + 1 + k) (by omega) hk
    · rw [head?_take (by omega), List.head?_drop]
      exact firstIdx_get hfi
    · rw [List.getLast?_eq_getElem?]
      have hlen : (((stripWrap content).drop st).take (en + 1 - st)).length
          = en + 1 - st := by
        rw [List.length_take, List.length_drop]
        omega
      rw [hlen]
      have he1 : en + 1 - st - 1 = en - st := by omega
      rw [he1, List.getElem?_take_of_lt (by omega), List.getElem?_drop]
      have he2 : st + (en - st) = en := by omega
      rw [he2]
      exact lastIdx_get hla
    · simp only [extractJSONFromContent, hfi, hla]
      rw [if_neg (by omega : ¬ en ≤ st)]

/-- Witness for `extract_normalizer_spec`: on the concrete reply
`a{1}b` the extractor keeps the inclusive substring from the first `{`
to the last `}`. -/
theorem extract_normalizer_spec_witness :
    ∃ a u b,
      stripWrap ['a', '{', '1', '}', 'b'] = a ++ u ++ b ∧
      '{' ∉ a ∧ '}' ∉ b ∧
      u.head? = some '{' ∧ u.getLast? = some '}' ∧
      extractJSONFromContent ['a', '{', '1', '}', 'b'] =
        if isValidJSON u then u else fixIncompleteJSON u :=
  (extract_normalizer_spec ['a', '{', '1', '}', 'b']).2
    ⟨1, 3, by decide, by decide, by decide⟩

/-! ### C4 machinery: the extractor and the repair on already-valid objects -/

lemma prefixOf_head {p s : Str} (h : p.isPrefixOf s = true) (hp : p ≠ []) :
    s.head? = p.head? := by
  obtain ⟨t, ht⟩ := List.isPrefixOf_iff_prefix.mp h
  rw [← ht, head?_append_left hp]

lemma suffixOf_getLast {p s : Str} (h : p.isSuffixOf s = true) (hp : p ≠ []) :
    s.getLast? = p.getLast? := by
  obtain ⟨t, ht⟩ := List.isSuffixOf_iff_suffix.mp h
  rw [← ht, List.getLast?_append_of_ne_nil t hp]

/-- Stripping whitespace and code fences is the identity on a text that
starts with `{` and ends with a non-space character that is not the last
character of a fence. -/
lemma stripWrap_eq_self {s : Str} {b : Char} (hh : s.head? = some '{')
    (hl : s.getLast? = some b) (hbs : goIsSpace b = false)
    (hbf : fence.getLast? ≠ some b) :
    stripWrap s = s := by
  have htrim : trimSpace s = s := trimSpace_eq_self hh (by decide) hl hbs
  have hp1 : fenceJson.isPrefixOf s = false := by
    by_contra hcon
    rw [Bool.not_eq_false] at hcon
    have := prefixOf_head hcon (by decide)
    rw [hh] at this
    exact absurd this (by decide)
  have hp2 : fence.isPrefixOf s = false := by
    by_contra hcon
    rw [Bool.not_eq_false] at hcon
    have := prefixOf_head hcon (by decide)
    rw [hh] at this
    exact absurd this (by decide)
  have hp3 : fence.isSuffixOf s = false := by
    by_contra hcon
    rw [Bool.not_eq_false] at hcon
    have := suffixOf_getLast hcon (by decide)
    rw [hl] at this
    exact hbf this.symm
  simp [stripWrap, htrim, hp1, hp2, hp3]

lemma firstIdx_head {s : Str} {a : Char} (h : s.head? = some a) :
    firstIdx a s = some 0 := by
  cases s with
  | nil => exact absurd h (by simp)
  | cons c t =>
    injection h with h
    subst h
    simp [firstIdx]

lemma foldl_jsonStep_none : ∀ l : Str, l.foldl jsonStep none = none := by
  intro l
  induction l with
  | nil => rfl
  | cons c cs ih =>
    rw [List.foldl_cons]
    exact ih

lemma jsonStep_esc_false {c : Char} (hc : ¬ c = '\\') {s1 r : JState}
    (h : jsonStep (some s1) c = some r) : r.esc = false := by
  simp only [jsonStep] at h
  split_ifs at h <;> first
    | (injection h with h; subst h; rfl)
    | (injection h with h; subst h; simp_all)
    | exact absurd h (by simp)
    | exact absurd ‹c = '\\'› hc

lemma foldl_jsonStep_last_esc {l : Str} {c : Char} (hc : ¬ c = '\\') {r : JState}
    (h : (l ++ [c]).foldl jsonStep (some ⟨[], false, false⟩) = some r) :
    r.esc = false := by
  rw [List.foldl_append] at h
  simp only [List.foldl_cons, List.foldl_nil] at h
  cases hst : l.foldl jsonStep (some ⟨[], false, false⟩) with
  | none =>
    rw [hst] at h
    simp [jsonStep] at h
  | some s1 =>
    rw [hst] at h
    exact jsonStep_esc_false hc h

/-- On a valid object the bracket scan ends in the clean state: empty
stack, not inside a string, no pending escape (the last character `}` of
the text is not a backslash). -/
lemma valid_scan_state {s : Str} (hh : s.head? = some '{') (hl : s.getLast? = some '}')
    (hv : isValidJSON s = true) :
    s.foldl jsonStep (some ⟨[], false, false⟩) = some ⟨[], false, false⟩ := by
  have ht : trimSpace s = s := trimSpace_eq_self hh (by decide) hl (by decide)
  have h1 : (['{'] : Str).isPrefixOf s = true := (singleton_isPrefixOf_iff '{' s).mpr hh
  have h2 : (['}'] : Str).isSuffixOf s = true := (singleton_isSuffixOf_iff '}' s).mpr hl
  simp only [isValidJSON, ht, h1, h2] at hv
  simp at hv
  cases hst : s.foldl jsonStep (some ⟨[], false, false⟩) with
  | none =>
    rw [hst] at hv
    simp at hv
  | some st =>
    rw [hst] at hv
    have h3 : st.esc = false := by
      obtain ⟨s', hs'⟩ := exists_append_of_getLast? hl
      rw [hs'] at hst
      exact foldl_jsonStep_last_esc (by decide) hst
    simp only [Bool.and_eq_true, List.isEmpty_iff, Bool.not_eq_true'] at hv
    cases st with
    | mk stack inStr esc => simp_all

/-- Appending any non-empty run of closing brackets and braces to a text
whose scan ended clean drives the scan to the failure state. -/
lemma append_brackets_invalid {s : Str}
    (hscan : s.foldl jsonStep (some ⟨[], false, false⟩) = some ⟨[], false, false⟩)
    {r : Str} (hr : r ≠ []) (hrc : ∀ c ∈ r, c = ']' ∨ c = '}') :
    (s ++ r).foldl jsonStep (some ⟨[], false, false⟩) = none := by
  rw [List.foldl_append, hscan]
  cases r with
  | nil => exact absurd rfl hr
  | cons c cs =>
    rw [List.foldl_cons]
    have hc : jsonStep (some ⟨[], false, false⟩) c = none := by
      rcases hrc c (List.mem_cons_self c cs) with h | h <;> subst h <;> decide
    rw [hc]
    exact foldl_jsonStep_none cs

lemma braceAdjust_eq_self {s : Str} (hh : s.head? = some '{')
    (hl : s.getLast? = some '}') : braceAdjust s = s := by
  have h1 : (['{'] : Str).isPrefixOf s = true := (singleton_isPrefixOf_iff '{' s).mpr hh
  have h2 : (['}'] : Str).isSuffixOf s = true := (singleton_isSuffixOf_iff '}' s).mpr hl
  simp [braceAdjust, h1, h2]

/-- On a trim-stable text wrapped in `{`…`}` the repair reduces to the
three unconditional appends of the amended form. -/
lemma fix_wrapped {s : Str} (hh : s.head? = some '{') (hl : s.getLast? = some '}')
    (ht : trimSpace s = s) :
    fixIncompleteJSON s =
      s ++ List.replicate (s.count '[' - s.count ']') ']'
        ++ List.replicate (s.count '{' - s.count '}') '}'
        ++ (if s.count '"' % 2 ≠ 0 then ['"'] else []) := by
  have hne : s ≠ [] := by
    intro h
    rw [h] at hh
    exact Option.noConfusion hh
  rw [fix_eq_amended]
  simp only [fixIncompleteJSONAmended, ht, if_neg hne, braceAdjust_eq_self hh hl]

/-- The extractor is the identity on a valid object: nothing is stripped
and the inclusive first-`{`-to-last-`}` slice is the whole text. -/
lemma extract_of_valid {s : Str} (hh : s.head? = some '{')
    (hl : s.getLast? = some '}') (hv : isValidJSON s = true) :
    extractJSONFromContent s = s := by
  obtain ⟨s', hs'⟩ := exists_append_of_getLast? hl
  have hs'ne : s' ≠ [] := by
    intro h
    rw [h] at hs'
    rw [hs'] at hh
    exact absurd hh (by decide)
  have hlen : 1 ≤ s'.length := List.length_pos.mpr hs'ne
  have hstrip : stripWrap s = s := stripWrap_eq_self hh hl (by decide) (by decide)
  have hfi : firstIdx '{' s = some 0 := firstIdx_head hh
  have hone : lastIdx '}' (['}'] : Str) = some 0 := by decide
  have hla : lastIdx '}' s = some s'.length := by
    rw [hs', lastIdx_append, hone]
    simp
  simp only [extractJSONFromContent, hstrip, hfi, hla]
  rw [if_neg (by omega : ¬ s'.length ≤ 0)]
  have hslice : (s.drop 0).take (s'.length + 1 - 0) = s := by
    rw [List.drop_zero]
    have he : s'.length + 1 - 0 = s.length := by
      rw [hs', List.length_append]
      simp
    rw [he, List.take_length]
  rw [hslice, if_pos hv]

/-- Stripping is the identity on a valid object followed by any run of
closing brackets, closing braces and quotes. -/
lemma stripWrap_append_tail {s tail : Str} (hh : s.head? = some '{')
    (hl : s.getLast? = some '}')
    (htail : ∀ c ∈ tail, c = ']' ∨ c = '}' ∨ c = '"') :
    stripWrap (s ++ tail) = s ++ tail := by
  have hsne : s ≠ [] := by
    intro h
    rw [h] at hh
    exact Option.noConfusion hh
  have hth : (s ++ tail).head? = some '{' := by
    rw [head?_append_left hsne]
    exact hh
  cases htl : tail.getLast? with
  | none =>
    have htnil : tail = [] := List.getLast?_eq_none_iff.mp htl
    subst htnil
    rw [List.append_nil]
    exact stripWrap_eq_self hh hl (by decide) (by decide)
  | some e =>
    have hne : tail ≠ [] := by
      intro h
      subst h
      simp at htl
    have hlast : (s ++ tail).getLast? = some e := by
      rw [List.getLast?_append_of_ne_nil s hne]
      exact htl
    have hmem : e ∈ tail := by
      obtain ⟨t', ht'⟩ := List.getLast?_eq_some_iff.mp htl
      rw [ht']
      simp
    rcases htail e hmem with h | h | h <;> subst h <;>
      exact stripWrap_eq_self hth hlast (by decide) (by decide)

/-- The repair step is the identity on the output of `fixIncompleteJSON`
applied to a valid object, provided the object's total quote count is
even or its raw `{` count does not exceed its raw `}` count: the
extractor slices back to the part ending at the last `}` and the repair
re-appends exactly what the slice cut off.  (With an odd quote count and
excess `{`s the second pass appends one further `}`, see the
counterexample.) -/
lemma fix_of_fix_valid {s : Str} (hh : s.head? = some '{')
    (hl : s.getLast? = some '}') (hv : isValidJSON s = true)
    (hq : s.count '"' % 2 = 0 ∨ s.count '{' ≤ s.count '}') :
    repairStep (fixIncompleteJSON s) = fixIncompleteJSON s := by
  have ht : trimSpace s = s := trimSpace_eq_self hh (by decide) hl (by decide)
  have hsne : s ≠ [] := by
    intro h
    rw [h] at hh
    exact Option.noConfusion hh
  have hslen : 2 ≤ s.length := by
    obtain ⟨s', hs'⟩ := exists_append_of_getLast? hl
    have hne : s' ≠ [] := by
      intro h
      rw [h] at hs'
      rw [hs'] at hh
      exact absurd hh (by decide)
    have hpos : 0 < s'.length := List.length_pos.mpr hne
    have hlen : s.length = s'.length + 1 := by
      rw [hs']
      simp
    omega
  have hlaS : lastIdx '}' s = some (s.length - 1) := by
    obtain ⟨s', hs'⟩ := exists_append_of_getLast? hl
    have hone : lastIdx '}' (['}'] : Str) = some 0 := by decide
    rw [hs', lastIdx_append, hone]
    simp
  rw [fix_wrapped hh hl ht]
  obtain ⟨qq, hqq⟩ : ∃ qq : Str,
      (if s.count '"' % 2 ≠ 0 then (['"'] : Str) else []) = qq := ⟨_, rfl⟩
  rw [hqq]
  have hq_cases : qq = ['"'] ∨ qq = [] := by
    rw [← hqq]
    by_cases hQ : s.count '"' % 2 ≠ 0
    · rw [if_pos hQ]
      exact Or.inl rfl
    · rw [if_neg hQ]
      exact Or.inr rfl
  obtain ⟨b, hb⟩ : ∃ b, s.count '[' - s.count ']' = b := ⟨_, rfl⟩
  obtain ⟨cc, hcc⟩ : ∃ cc, s.count '{' - s.count '}' = cc := ⟨_, rfl⟩
  rw [hb, hcc]
  have hx1 : s ++ List.replicate b ']' ≠ [] := by simp [hsne]
  rcases Nat.eq_zero_or_pos cc with hcc0 | hccpos
  · subst hcc0
    rw [List.replicate_zero, List.append_nil]
    have hth : ((s ++ List.replicate b ']') ++ qq).head? = some '{' := by
      rw [head?_append_left hx1, head?_append_left hsne]
      exact hh
    have htail_chars : ∀ c ∈ List.replicate b ']' ++ qq,
        c = ']' ∨ c = '}' ∨ c = '"' := by
      intro c hcmem
      rcases List.mem_append.mp hcmem with h | h
      · exact Or.inl (List.eq_of_mem_replicate h)
      · rcases hq_cases with hq | hq
        · subst hq
          have hce : c = '"' := by simpa using h
          exact Or.inr (Or.inr hce)
        · subst hq
          simp at h
    have hstrip : stripWrap ((s ++ List.replicate b ']') ++ qq)
        = (s ++ List.replicate b ']') ++ qq := by
      rw [List.append_assoc]
      exact stripWrap_append_tail hh hl htail_chars
    have hfi : firstIdx '{' ((s ++ List.replicate b ']') ++ qq) = some 0 :=
      firstIdx_head hth
    have hnomem : '}' ∉ List.replicate b ']' ++ qq := by
      intro hmem
      rcases List.mem_append.mp hmem with h | h
      · exact absurd (List.eq_of_mem_replicate h) (by decide)
      · rcases hq_cases with hq | hq
        · subst hq
          exact absurd h (by decide)
        · subst hq
          simp at h
    have hla : lastIdx '}' ((s ++ List.replicate b ']') ++ qq)
        = some (s.length - 1) := by
      rw [List.append_assoc, lastIdx_append, lastIdx_eq_none_iff.mpr hnomem]
      exact hlaS
    have hextract : extractJSONFromContent ((s ++ List.replicate b ']') ++ qq) = s := by
      simp only [extractJSONFromContent, hstrip, hfi, hla]
      rw [if_neg (by omega : ¬ s.length - 1 ≤ 0)]
      rw [List.drop_zero]
      have he : s.length - 1 + 1 - 0 = s.length := by omega
      rw [he, List.append_assoc, List.take_left]
      rw [if_pos hv]
    rw [repairStep, hextract, fix_wrapped hh hl ht, hb, hcc,
      List.replicate_zero, List.append_nil, hqq]
  · have hQ : s.count '"' % 2 = 0 := by
      rcases hq with h | h
      · exact h
      · omega
    have hqnil : qq = [] := by
      rw [← hqq]
      rw [if_neg (by simp [hQ])]
    subst hqnil
    rw [List.append_nil]
    have hr2ne : List.replicate cc '}' ≠ [] := by
      intro h
      have hlen0 := congrArg List.length h
      rw [List.length_replicate] at hlen0
      simp at hlen0
      omega
    have huh : ((s ++ List.replicate b ']') ++ List.replicate cc '}').head?
        = some '{' := by
      rw [head?_append_left hx1, head?_append_left hsne]
      exact hh
    have hulast : ((s ++ List.replicate b ']') ++ List.replicate cc '}').getLast?
        = some '}' := by
      rw [List.getLast?_append_of_ne_nil _ hr2ne]
      obtain ⟨m, hm⟩ : ∃ m, cc = m + 1 := ⟨cc - 1, by omega⟩
      rw [hm, List.replicate_succ']
      exact List.getLast?_concat _
    have hut : trimSpace ((s ++ List.replicate b ']') ++ List.replicate cc '}')
        = (s ++ List.replicate b ']') ++ List.replicate cc '}' :=
      trimSpace_eq_self huh (by decide) hulast (by decide)
    have hchars : ∀ c ∈ List.replicate b ']' ++ List.replicate cc '}',
        c = ']' ∨ c = '}' := by
      intro c hc
      rcases List.mem_append.mp hc with h | h
      · exact Or.inl (List.eq_of_mem_replicate h)
      · exact Or.inr (List.eq_of_mem_replicate h)
    have hchars3 : ∀ c ∈ List.replicate b ']' ++ List.replicate cc '}',
        c = ']' ∨ c = '}' ∨ c = '"' := by
      intro c hc
      rcases hchars c hc with h | h
      · exact Or.inl h
      · exact Or.inr (Or.inl h)
    have hstrip : stripWrap ((s ++ List.replicate b ']') ++ List.replicate cc '}')
        = (s ++ List.replicate b ']') ++ List.replicate cc '}' := by
      rw [List.append_assoc]
      exact stripWrap_append_tail hh hl hchars3
    have hfi : firstIdx '{' ((s ++ List.replicate b ']') ++ List.replicate cc '}')
        = some 0 := firstIdx_head huh
    have hlar2 : lastIdx '}' (List.replicate cc '}') = some (cc - 1) :=
      lastIdx_replicate_self '}' cc hccpos
    have hla : lastIdx '}' ((s ++ List.replicate b ']') ++ List.replicate cc '}')
        = some (s.length + b + cc - 1) := by
      rw [lastIdx_append, hlar2]
      show some ((s ++ List.replicate b ']').length + (cc - 1)) = _
      rw [List.length_append, List.length_replicate]
      congr 1
      omega
    have hscan : s.foldl jsonStep (some ⟨[], false, false⟩) = some ⟨[], false, false⟩ :=
      valid_scan_state hh hl hv
    have hne12 : List.replicate b ']' ++ List.replicate cc '}' ≠ [] := by
      simp [hr2ne]
    have hinv_scan : ((s ++ (List.replicate b ']' ++ List.replicate cc '}')).foldl
        jsonStep (some ⟨[], false, false⟩)) = none :=
      append_brackets_invalid hscan hne12 hchars
    have hinv_scan' : (((s ++ List.replicate b ']') ++ List.replicate cc '}').foldl
        jsonStep (some ⟨[], false, false⟩)) = none := by
      rw [List.append_assoc]
      exact hinv_scan
    have h1u : (['{'] : Str).isPrefixOf
        ((s ++ List.replicate b ']') ++ List.replicate cc '}') = true :=
      (singleton_isPrefixOf_iff _ _).mpr huh
    have h2u : (['}'] : Str).isSuffixOf
        ((s ++ List.replicate b ']') ++ List.replicate cc '}') = true :=
      (singleton_isSuffixOf_iff _ _).mpr hulast
    have hinvalid : isValidJSON ((s ++ List.replicate b ']') ++ List.replicate cc '}')
        = false := by
      simp only [isValidJSON, hut, h1u, h2u, hinv_scan']
      simp
    have hinv_cond : ¬ (isValidJSON
        ((s ++ List.replicate b ']') ++ List.replicate cc '}') = true) := by
      rw [hinvalid]
      exact Bool.false_ne_true
    have hcA : ((s ++ List.replicate b ']') ++ List.replicate cc '}').count '['
        = s.count '[' := by
      rw [count_append_replicate_ne _ _ (by decide : ('[' : Char) ≠ '}'),
        count_append_replicate_ne _ _ (by decide : ('[' : Char) ≠ ']')]
    have hcB : ((s ++ List.replicate b ']') ++ List.replicate cc '}').count ']'
        = s.count ']' + b := by
      rw [count_append_replicate_ne _ _ (by decide : (']' : Char) ≠ '}'),
        List.count_append]
      simp [List.count_replicate]
    have hcC : ((s ++ List.replicate b ']') ++ List.replicate cc '}').count '{'
        = s.count '{' := by
      rw [count_append_replicate_ne _ _ (by decide : ('{' : Char) ≠ '}'),
        count_append_replicate_ne _ _ (by decide : ('{' : Char) ≠ ']')]
    have hcD : ((s ++ List.replicate b ']') ++ List.replicate cc '}').count '}'
        = s.count '}' + cc := by
      rw [List.count_append,
        count_append_replicate_ne _ _ (by decide : ('}' : Char) ≠ ']'),
        List.count_replicate]
      simp
    have hcQ : ((s ++ List.replicate b ']') ++ List.replicate cc '}').count '"'
        = s.count '"' := by
      rw [count_append_replicate_ne _ _ (by decide : ('"' : Char) ≠ '}'),
        count_append_replicate_ne _ _ (by decide : ('"' : Char) ≠ ']')]
    have hfixu : fixIncompleteJSON ((s ++ List.replicate b ']') ++ List.replicate cc '}')
        = (s ++ List.replicate b ']') ++ List.replicate cc '}' := by
      rw [fix_wrapped huh hulast hut, hcA, hcB, hcC, hcD, hcQ]
      have hz1 : s.count '[' - (s.count ']' + b) = 0 := by omega
      have hz2 : s.count '{' - (s.count '}' + cc) = 0 := by omega
      rw [hz1, hz2, List.replicate_zero, List.replicate_zero, List.append_nil,
        List.append_nil, if_neg (by simp [hQ]), List.append_nil]
    have hextract : extractJSONFromContent
        ((s ++ List.replicate b ']') ++ List.replicate cc '}')
        = (s ++ List.replicate b ']') ++ List.replicate cc '}' := by
      simp only [extractJSONFromContent, hstrip, hfi, hla]
      rw [if_neg (by omega : ¬ s.length + b + cc - 1 ≤ 0)]
      rw [List.drop_zero]
      have he : s.length + b + cc - 1 + 1 - 0
          = ((s ++ List.replicate b ']') ++ List.replicate cc '}').length := by
        rw [List.length_append, List.length_append, List.length_replicate,
          List.length_replicate]
        omega
      rw [he, List.take_length]
      rw [if_neg hinv_cond, hfixu]
    rw [repairStep, hextract, hfixu]

/-! ### Claim C4 — repair idempotence (corrected) -/

/-- Counterexample to claim C4 as stated: the reply
`\x7b"\x7b":"\\""\x7d` is a valid JSON object (it starts with `{`, ends
with `}` and passes the string-aware scan), yet the repair/extraction
step is not idempotent on it.  The raw counts see two `{` against one
`}` and five quotes, so the first pass appends `}` and then `"`; the
extractor of the second pass slices the trailing quote off again, the
repair restores it, and the brace adjustment of the second
`fixIncompleteJSON` — seeing a string now ending in `"` — appends one
further `}`. -/
theorem repair_not_idempotent_cex :
    ((['{', '"', '{', '"', ':', '"', '\\', '"', '"', '}'] : Str).head? = some '{' ∧
     (['{', '"', '{', '"', ':', '"', '\\', '"', '"', '}'] : Str).getLast? = some '}' ∧
     isValidJSON ['{', '"', '{', '"', ':', '"', '\\', '"', '"', '}'] = true) ∧
    repairStep (repairStep ['{', '"', '{', '"', ':', '"', '\\', '"', '"', '}']) ≠
      repairStep ['{', '"', '{', '"', ':', '"', '\\', '"', '"', '}'] := by
  decide

/-- **C4 (amended).** Repair idempotence on valid objects holds under
the proviso that the object's total `"` count is even or its raw `{`
count does not exceed its raw `}` count: then applying the
repair/extraction step (`extractJSONFromContent` followed by
`fixIncompleteJSON`, as applied to each raw reply) twice yields the
same string as applying it once. -/
theorem repairStep_idempotent (s : Str) (hh : s.head? = some '{')
    (hl : s.getLast? = some '}') (hv : isValidJSON s = true)
    (hq : s.count '"' % 2 = 0 ∨ s.count '{' ≤ s.count '}') :
    repairStep (repairStep s) = repairStep s := by
  have h1 : repairStep s = fixIncompleteJSON s := by
    rw [repairStep, extract_of_valid hh hl hv]
  rw [h1]
  exact fix_of_fix_valid hh hl hv hq

/-- Witness for `repairStep_idempotent` on `\x7b"\x7b":1\x7d`: the
first pass genuinely appends a `}` (raw braces are unbalanced because
of the `{` inside the string) and the second pass is the identity. -/
theorem repairStep_idempotent_witness :
    ((['{', '"', '{', '"', ':', '1', '}'] : Str).head? = some '{' ∧
     (['{', '"', '{', '"', ':', '1', '}'] : Str).getLast? = some '}' ∧
     isValidJSON ['{', '"', '{', '"', ':', '1', '}'] = true ∧
     (['{', '"', '{', '"', ':', '1', '}'] : Str).count '"' % 2 = 0) ∧
    repairStep (repairStep ['{', '"', '{', '"', ':', '1', '}']) =
      repairStep ['{', '"', '{', '"', ':', '1', '}'] :=
  ⟨⟨by decide, by decide, by decide, by decide⟩,
    repairStep_idempotent ['{', '"', '{', '"', ':', '1', '}']
      (by decide) (by decide) (by decide) (Or.inl (by decide))⟩

end FileClassify
